import Mathlib

/-!
Verification of the krilla object-graph serialization engine.

This file gives a shallow embedding, in Lean 4, of the parts of the krilla
PDF-serialization code that the specification's claims are about:

* `ExtGState` and its `combine` overlay (`src/src/object/ext_g_state.rs`);
* the per-stream `ResourceMapper` (`src/src/resource.rs`);
* the content-hash object cache `SerializerContext::add` (`src/src/serialize.rs`);
* the stream filter pipeline (`src/crates/krilla/src/stream.rs`);
* the `ChunkContainer` two-pass finalize protocol, embedded-PDF renumbering,
  catalog assembly, signature placeholders and validation diagnostics
  (`src/crates/krilla/src/chunk_container.rs`).

Machine integers (`i32` references, `u32` resource numbers, `u8` bytes) are
modelled as `Nat`: every counter in the modelled code only ever increments
from a small starting point, and bytes are only moved, never arithmetically
combined, so no overflow is reachable in the modelled operations.
Rust `HashMap`s are modelled as association lists with first-match lookup and
insert-if-absent entry semantics, matching the only access patterns the code
uses.  Fallible code (`KrillaResult`) is modelled with `Except`.
-/

/-- First-match association-list lookup, the model of `HashMap::get`. -/
def alookup {α β : Type} [DecidableEq α] : List (α × β) → α → Option β
  | [], _ => none
  | (k, v) :: rest, x => if x = k then some v else alookup rest x

theorem alookup_append {α β : Type} [DecidableEq α] (l₁ l₂ : List (α × β)) (x : α) :
    alookup (l₁ ++ l₂) x =
      match alookup l₁ x with
      | some v => some v
      | none => alookup l₂ x := by
  induction l₁ with
  | nil => simp [alookup]
  | cons p rest ih =>
    by_cases h : x = p.1
    · simp [alookup, h]
    · simp [alookup, h, ih]

theorem alookup_eq_none_of_not_mem {α β : Type} [DecidableEq α]
    (l : List (α × β)) (x : α) (h : x ∉ l.map Prod.fst) : alookup l x = none := by
  induction l with
  | nil => rfl
  | cons p rest ih =>
    simp only [List.map_cons, List.mem_cons] at h
    push_neg at h
    simp [alookup, h.1, ih h.2]

/-! ## ExtGState (`src/src/object/ext_g_state.rs`)

The alpha values are `NormalizedF32` in the source, the blend modes and masks
are library types; `combine` and `empty` only ever test and move whole field
values, so the embedding is parametric in the three payload types. -/

/-- The `Repr` payload of `ExtGState`: four optional graphics-state fields.
(The `Arc` wrapper only provides sharing and is semantically transparent.) -/
structure ExtGState (A B M : Type) where
  non_stroking_alpha : Option A
  stroking_alpha : Option A
  blend_mode : Option B
  mask : Option M
deriving DecidableEq, Repr

/-- `ExtGState::empty`: true iff none of the four fields is set. -/
def ExtGState.empty {A B M : Type} (s : ExtGState A B M) : Bool :=
  s.mask.isNone && s.stroking_alpha.isNone
    && s.non_stroking_alpha.isNone && s.blend_mode.isNone

/-- `ExtGState::combine`: overwrite each field of `self` with `other`'s field
whenever `other` has it set, in the source's field order. -/
def ExtGState.combine {A B M : Type} (s other : ExtGState A B M) : ExtGState A B M :=
  let s1 := match other.stroking_alpha with
    | some v => { s with stroking_alpha := some v }
    | none => s
  let s2 := match other.non_stroking_alpha with
    | some v => { s1 with non_stroking_alpha := some v }
    | none => s1
  let s3 := match other.blend_mode with
    | some v => { s2 with blend_mode := some v }
    | none => s2
  match other.mask with
  | some v => { s3 with mask := some v }
  | none => s3

/-- **C10.** `ExtGState::combine` is a field-wise right-biased overlay: each of
the four fields of `a.combine b` equals `b`'s value when `b` has the field set
and `a`'s prior value otherwise; consequently combining any state with an
empty `ExtGState` leaves it unchanged. -/
theorem extGState_combine_right_biased_overlay {A B M : Type} (a b : ExtGState A B M) :
    ((a.combine b).stroking_alpha = b.stroking_alpha.or a.stroking_alpha
      ∧ (a.combine b).non_stroking_alpha = b.non_stroking_alpha.or a.non_stroking_alpha
      ∧ (a.combine b).blend_mode = b.blend_mode.or a.blend_mode
      ∧ (a.combine b).mask = b.mask.or a.mask)
    ∧ (b.empty = true → a.combine b = a) := by
  obtain ⟨bn, bs, bb, bm⟩ := b
  constructor
  · cases bn <;> cases bs <;> cases bb <;> cases bm <;>
      simp [ExtGState.combine, Option.or]
  · intro h
    simp only [ExtGState.empty, Bool.and_eq_true, Option.isNone_iff_eq_none] at h
    obtain ⟨⟨⟨hm, hs⟩, hn⟩, hb⟩ := h
    subst hm; subst hs; subst hn; subst hb
    rfl

/-- Witness for C10 at a concrete input: combining a state that has a
non-stroking alpha and a blend mode set with the empty state leaves it
unchanged, and the field-wise overlay equations hold there. -/
theorem extGState_combine_right_biased_overlay_witness :
    ((⟨some 3, none, some 7, none⟩ : ExtGState Nat Nat Nat).combine
        ⟨none, none, none, none⟩ = ⟨some 3, none, some 7, none⟩)
    ∧ ((⟨some 3, none, some 7, none⟩ : ExtGState Nat Nat Nat).combine
        ⟨some 4, some 5, none, some 9⟩).mask = some 9 :=
  ⟨(extGState_combine_right_biased_overlay ⟨some 3, none, some 7, none⟩
      ⟨none, none, none, none⟩).2 (by decide),
   by
    have h := (extGState_combine_right_biased_overlay
      (⟨some 3, none, some 7, none⟩ : ExtGState Nat Nat Nat)
      ⟨some 4, some 5, none, some 9⟩).1.2.2.2
    simpa [Option.or] using h⟩

/-! ## Decimal name formatting

`ResourceMapper::name_from_number` builds names with `format!("{}{}", prefix, num)`.
Decimal formatting is modelled structurally (fuel recursion on the repeated
division by 10, as in the standard formatting loop) so that it evaluates by
kernel reduction. -/

/-- Little-endian decimal digits of `n`, with explicit fuel (`fuel ≥ n` suffices). -/
def decDigitsCore : Nat → Nat → List Nat
  | 0, _ => []
  | _ + 1, 0 => []
  | fuel + 1, n + 1 => (n + 1) % 10 :: decDigitsCore fuel ((n + 1) / 10)

/-- Little-endian decimal digits of `n`. -/
def decDigits (n : Nat) : List Nat := decDigitsCore n n

/-- Value of a little-endian decimal digit list. -/
def decVal : List Nat → Nat
  | [] => 0
  | d :: rest => d + 10 * decVal rest

theorem decVal_decDigitsCore : ∀ fuel n, n ≤ fuel → decVal (decDigitsCore fuel n) = n := by
  intro fuel
  induction fuel with
  | zero => intro n hn; interval_cases n; rfl
  | succ f ih =>
    intro n hn
    match n with
    | 0 => rfl
    | n + 1 =>
      have hdiv : (n + 1) / 10 ≤ f := by
        have h1 : (n + 1) / 10 ≤ n := Nat.lt_succ_iff.mp (Nat.div_lt_self (Nat.succ_pos n) (by norm_num))
        omega
      simp only [decDigitsCore, decVal, ih _ hdiv]
      omega

theorem decVal_decDigits (n : Nat) : decVal (decDigits n) = n :=
  decVal_decDigitsCore n n le_rfl

theorem decDigits_injective : Function.Injective decDigits := by
  intro a b h
  have := congrArg decVal h
  rwa [decVal_decDigits, decVal_decDigits] at this

theorem decDigitsCore_lt_ten : ∀ fuel n, ∀ d ∈ decDigitsCore fuel n, d < 10 := by
  intro fuel
  induction fuel with
  | zero => intro n d hd; simp [decDigitsCore] at hd
  | succ f ih =>
    intro n d hd
    match n with
    | 0 => simp [decDigitsCore] at hd
    | n + 1 =>
      simp only [decDigitsCore, List.mem_cons] at hd
      rcases hd with h | h
      · subst h; exact Nat.mod_lt _ (by norm_num)
      · exact ih _ _ h

/-- Inverse of `Nat.digitChar` on decimal digits. -/
def charToDigit (c : Char) : Nat := c.toNat - 48

theorem charToDigit_digitChar : ∀ d < 10, charToDigit (Nat.digitChar d) = d := by decide

/-- Decimal string representation of `n` (the model of Rust's `{}` formatting
of an unsigned integer). -/
def decRepr (n : Nat) : String :=
  if n = 0 then "0" else ((decDigits n).reverse.map Nat.digitChar).asString

theorem decRepr_asString_ne_zero {n : Nat} (hn : n ≠ 0) :
    ((decDigits n).reverse.map Nat.digitChar).asString ≠ "0" := by
  intro h
  have hdata : (decDigits n).reverse.map Nat.digitChar = ['0'] := congrArg String.data h
  rcases hrev : (decDigits n).reverse with _ | ⟨d, t⟩
  · rw [hrev] at hdata; simp at hdata
  · rw [hrev] at hdata
    simp only [List.map_cons] at hdata
    injection hdata with h1 h2
    have ht : t = [] := List.map_eq_nil_iff.mp h2
    have hdmem : d ∈ decDigits n := by
      have hm : d ∈ (decDigits n).reverse := by
        rw [hrev]; exact List.mem_cons_self _ _
      exact List.mem_reverse.mp hm
    have hd10 : d < 10 := decDigitsCore_lt_ten _ _ _ hdmem
    have hdz : d = 0 := by
      have hcd := charToDigit_digitChar d hd10
      rw [h1] at hcd
      have h48 : charToDigit '0' = 0 := rfl
      rw [h48] at hcd
      omega
    subst hdz; subst ht
    have hrev2 : decDigits n = [0] := by
      have hc := congrArg List.reverse hrev
      simpa using hc
    have hv := decVal_decDigits n
    rw [hrev2] at hv
    simp [decVal] at hv
    exact hn hv.symm

theorem decRepr_injective : Function.Injective decRepr := by
  have key : ∀ a b : Nat, a ≠ 0 → b ≠ 0 → decRepr a = decRepr b → a = b := by
    intro a b ha hb h
    simp only [decRepr, if_neg ha, if_neg hb] at h
    have hdata := congrArg String.data h
    have h1 : (decDigits a).reverse.map Nat.digitChar = (decDigits b).reverse.map Nat.digitChar := hdata
    have h2 : (decDigits a).reverse = (decDigits b).reverse := by
      have := congrArg (List.map charToDigit) h1
      rw [List.map_map, List.map_map] at this
      have ea : (decDigits a).reverse.map (charToDigit ∘ Nat.digitChar)
          = (decDigits a).reverse := by
        rw [← List.map_id (decDigits a).reverse]
        rw [List.map_map]
        refine List.map_congr_left ?_
        intro d hd
        have : d < 10 := decDigitsCore_lt_ten _ _ _ (List.mem_reverse.mp hd)
        simp [charToDigit_digitChar d this]
      have eb : (decDigits b).reverse.map (charToDigit ∘ Nat.digitChar)
          = (decDigits b).reverse := by
        rw [← List.map_id (decDigits b).reverse]
        rw [List.map_map]
        refine List.map_congr_left ?_
        intro d hd
        have : d < 10 := decDigitsCore_lt_ten _ _ _ (List.mem_reverse.mp hd)
        simp [charToDigit_digitChar d this]
      rw [ea, eb] at this
      exact this
    have h3 : decDigits a = decDigits b := List.reverse_injective h2
    exact decDigits_injective h3
  intro a b h
  by_cases ha : a = 0 <;> by_cases hb : b = 0
  · omega
  · exfalso
    subst ha
    have h0 : decRepr 0 = "0" := rfl
    rw [h0] at h
    simp only [decRepr, if_neg hb] at h
    exact decRepr_asString_ne_zero hb h.symm
  · exfalso
    subst hb
    have h0 : decRepr 0 = "0" := rfl
    rw [h0] at h
    simp only [decRepr, if_neg ha] at h
    exact decRepr_asString_ne_zero ha h
  · exact key a b ha hb h

/-! ## ResourceMapper (`src/src/resource.rs`)

`ResourceMapper<V>` deduplicates structured resource values into short local
names `<prefix><index>`.  `forward` is the `Vec` of first-seen values,
`backward` the `HashMap` from value to assigned number.  The per-type name
`V::get_name()` ("cs", "gs", "pa") is passed as the `pfx` argument. -/

structure ResourceMapper (V : Type) [DecidableEq V] where
  forward : List V
  backward : List (V × Nat)
  counter : Nat
deriving Repr

/-- `ResourceMapper::new`. -/
def ResourceMapper.new (V : Type) [DecidableEq V] : ResourceMapper V :=
  { forward := [], backward := [], counter := 0 }

/-- `ResourceMapper::remap`: return the number already assigned to `resource`,
or assign `forward.len()` as its number, pushing it onto `forward`. -/
def ResourceMapper.remap {V : Type} [DecidableEq V]
    (m : ResourceMapper V) (resource : V) : Nat × ResourceMapper V :=
  match alookup m.backward resource with
  | some n => (n, m)
  | none =>
    let old := m.forward.length
    (old, { m with forward := m.forward ++ [resource],
                   backward := (resource, old) :: m.backward })

/-- `ResourceMapper::name_from_number`. -/
def nameFromNumber (pfx : String) (num : Nat) : String := pfx ++ decRepr num

/-- `ResourceMapper::remap_with_name`. -/
def ResourceMapper.remapWithName {V : Type} [DecidableEq V]
    (pfx : String) (m : ResourceMapper V) (resource : V) : String × ResourceMapper V :=
  let r := m.remap resource
  (nameFromNumber pfx r.1, r.2)

/-- `ResourceMapper::get_entries`: iterate `forward` (insertion order), pairing
each value with the name derived from its position. -/
def ResourceMapper.getEntries {V : Type} [DecidableEq V]
    (pfx : String) (m : ResourceMapper V) : List (String × V) :=
  m.forward.enum.map (fun p => (nameFromNumber pfx p.1, p.2))

/-- A whole session of registrations against one mapper. -/
def ResourceMapper.remapAll {V : Type} [DecidableEq V]
    (m : ResourceMapper V) (vs : List V) : ResourceMapper V :=
  vs.foldl (fun acc v => (acc.remap v).2) m

/-- First-seen deduplication of a list, keeping insertion order. -/
def firstSeen {V : Type} [DecidableEq V] (acc : List V) : List V → List V
  | [] => acc
  | v :: rest => if v ∈ acc then firstSeen acc rest else firstSeen (acc ++ [v]) rest

/-- Coherence of a mapper state: `backward` maps a value to `n` exactly when
the value sits at position `n` of `forward`. -/
def ResourceMapper.Coherent {V : Type} [DecidableEq V] (m : ResourceMapper V) : Prop :=
  ∀ v n, alookup m.backward v = some n ↔ m.forward[n]? = some v

theorem ResourceMapper.coherent_new (V : Type) [DecidableEq V] :
    (ResourceMapper.new V).Coherent := by
  intro v n
  simp [ResourceMapper.new, alookup]

theorem ResourceMapper.coherent_remap {V : Type} [DecidableEq V]
    {m : ResourceMapper V} (hm : m.Coherent) (v : V) : (m.remap v).2.Coherent := by
  unfold ResourceMapper.remap
  cases hl : alookup m.backward v with
  | some n => exact hm
  | none =>
    intro w n
    simp only [alookup]
    by_cases hw : w = v
    · subst hw
      constructor
      · intro h
        rw [if_pos rfl] at h
        have hn : n = m.forward.length := by simpa using h.symm
        subst hn
        simp
      · intro h
        rw [if_pos rfl]
        by_cases hn : n = m.forward.length
        · subst hn; rfl
        · exfalso
          rcases Nat.lt_or_ge n m.forward.length with hlt | hge
          · rw [List.getElem?_append_left hlt] at h
            have := (hm w n).mpr h
            rw [hl] at this
            exact Option.noConfusion this
          · have hge' : m.forward.length < n := lt_of_le_of_ne hge (fun h2 => hn h2.symm)
            rw [List.getElem?_eq_none] at h
            · exact Option.noConfusion h
            · simp; omega
    · rw [if_neg hw]
      constructor
      · intro h
        have := (hm w n).mp h
        have hn : n < m.forward.length := by
          by_contra hge
          rw [List.getElem?_eq_none (by omega)] at this
          exact Option.noConfusion this
        rw [List.getElem?_append_left hn]
        exact this
      · intro h
        apply (hm w n).mpr
        by_cases hn : n < m.forward.length
        · rwa [List.getElem?_append_left hn] at h
        · exfalso
          rcases Nat.lt_or_ge n (m.forward.length + 1) with hlt | hge
          · have hn' : n = m.forward.length := by omega
            subst hn'
            rw [List.getElem?_concat_length] at h
            exact hw (Option.some.injEq _ _ ▸ h.symm ▸ rfl)
          · rw [List.getElem?_eq_none] at h
            · exact Option.noConfusion h
            · simp; omega

theorem ResourceMapper.coherent_remapAll {V : Type} [DecidableEq V]
    {m : ResourceMapper V} (hm : m.Coherent) (vs : List V) : (m.remapAll vs).Coherent := by
  induction vs generalizing m with
  | nil => exact hm
  | cons v rest ih => exact ih (coherent_remap hm v)

theorem string_data_inj {s t : String} (h : s.data = t.data) : s = t := by
  cases s; cases t; exact congrArg String.mk h

theorem nameFromNumber_injective (pfx : String) : Function.Injective (nameFromNumber pfx) := by
  intro a b h
  apply decRepr_injective
  have hd := congrArg String.data h
  simp only [nameFromNumber, String.data_append] at hd
  exact string_data_inj (List.append_cancel_left hd)

/-- After remapping `v`, looking `v` up returns the number `remap` returned. -/
theorem ResourceMapper.alookup_remap_self {V : Type} [DecidableEq V]
    (m : ResourceMapper V) (v : V) :
    alookup (m.remap v).2.backward v = some (m.remap v).1 := by
  unfold ResourceMapper.remap
  cases hl : alookup m.backward v with
  | some n => exact hl
  | none => simp [alookup]

/-- Lookups of already-registered values survive further remaps. -/
theorem ResourceMapper.alookup_remap_preserved {V : Type} [DecidableEq V]
    (m : ResourceMapper V) (v w : V) (n : Nat)
    (h : alookup m.backward w = some n) :
    alookup (m.remap v).2.backward w = some n := by
  unfold ResourceMapper.remap
  cases hl : alookup m.backward v with
  | some k => exact h
  | none =>
    have hwv : w ≠ v := by
      intro he; rw [he, hl] at h; exact Option.noConfusion h
    simpa [alookup, hwv] using h

/-- Remapping the same value a second time returns the same number and leaves
the mapper unchanged. -/
theorem ResourceMapper.remap_remap {V : Type} [DecidableEq V]
    (m : ResourceMapper V) (v : V) :
    ((m.remap v).2).remap v = ((m.remap v).1, (m.remap v).2) := by
  have h := m.alookup_remap_self v
  generalize hg : m.remap v = p at h ⊢
  obtain ⟨r, m2⟩ := p
  simp only at h ⊢
  unfold ResourceMapper.remap
  rw [h]

/-- In a coherent mapper, distinct values never share a number. -/
theorem ResourceMapper.coherent_distinct {V : Type} [DecidableEq V]
    {m : ResourceMapper V} (hm : m.Coherent) {a b : V} {na nb : Nat}
    (ha : alookup m.backward a = some na) (hb : alookup m.backward b = some nb)
    (hab : a ≠ b) : na ≠ nb := by
  intro he
  subst he
  have h1 := (hm a na).mp ha
  have h2 := (hm b na).mp hb
  rw [h1] at h2
  exact hab (Option.some.inj h2)

/-- In a coherent mapper the `forward` slot of a value is its assigned number. -/
theorem ResourceMapper.coherent_lookup_of_mem {V : Type} [DecidableEq V]
    {m : ResourceMapper V} (hm : m.Coherent) {v : V} (hv : v ∈ m.forward) :
    ∃ n : Nat, alookup m.backward v = some n := by
  obtain ⟨i, hi⟩ := List.mem_iff_getElem?.mp hv
  exact ⟨i, (hm v i).mpr hi⟩

/-- The running session fills `forward` with exactly the first-seen
deduplication of the registered values, in order. -/
theorem ResourceMapper.remapAll_forward {V : Type} [DecidableEq V] :
    ∀ (vs : List V) (m : ResourceMapper V), m.Coherent →
      (m.remapAll vs).forward = firstSeen m.forward vs := by
  intro vs
  induction vs with
  | nil => intro m _; rfl
  | cons v rest ih =>
    intro m hm
    have hstep : m.remapAll (v :: rest) = ((m.remap v).2).remapAll rest := rfl
    rw [hstep]
    by_cases hv : v ∈ m.forward
    · obtain ⟨n, hn⟩ := ResourceMapper.coherent_lookup_of_mem hm hv
      have h2 : (m.remap v).2 = m := by
        unfold ResourceMapper.remap
        rw [hn]
      rw [h2, ih m hm]
      simp [firstSeen, hv]
    · have hl : alookup m.backward v = none := by
        cases hl : alookup m.backward v with
        | none => rfl
        | some n =>
          exact absurd (List.mem_iff_getElem?.mpr ⟨n, (hm v n).mp hl⟩) hv
      have h2 : (m.remap v).2 =
          { m with forward := m.forward ++ [v], backward := (v, m.forward.length) :: m.backward } := by
        unfold ResourceMapper.remap
        rw [hl]
      rw [h2, ih _ (by rw [← h2]; exact ResourceMapper.coherent_remap hm v)]
      simp [firstSeen, hv]

theorem ResourceMapper.remap_of_lookup {V : Type} [DecidableEq V]
    (m : ResourceMapper V) (v : V) (n : Nat) (h : alookup m.backward v = some n) :
    m.remap v = (n, m) := by
  unfold ResourceMapper.remap
  rw [h]

/-- One mapper fed the whole registration sequence `vs`, starting empty. -/
def sessionMapper (V : Type) [DecidableEq V] (vs : List V) : ResourceMapper V :=
  (ResourceMapper.new V).remapAll vs

theorem sessionMapper_coherent (V : Type) [DecidableEq V] (vs : List V) :
    (sessionMapper V vs).Coherent :=
  ResourceMapper.coherent_remapAll (ResourceMapper.coherent_new V) vs

/-- **C6.** Within one `ResourceMapper` session: remapping the same value twice
returns the same number (and hence the same name) and leaves the mapper
unchanged; remapping two unequal values never returns the same number or name;
the first occurrence of a value gets the next slot of a strictly increasing
per-mapper counter (prefix followed by 0, 1, 2, ... in first-seen order, the
number being the value's position in `forward`); and `get_entries` enumerates
the (name, value) pairs in exactly insertion (first-seen) order. -/
theorem resourceMapper_dedup_first_seen_order (V : Type) [DecidableEq V]
    (pfx : String) (vs : List V) :
    (∀ v, (((sessionMapper V vs).remap v).2).remapWithName pfx v
        = (((sessionMapper V vs).remapWithName pfx v).1, ((sessionMapper V vs).remap v).2))
    ∧ (∀ a b, a ≠ b →
        ((((sessionMapper V vs).remap a).2).remap b).1 ≠ ((sessionMapper V vs).remap a).1
        ∧ ((((sessionMapper V vs).remapWithName pfx a).2).remapWithName pfx b).1
            ≠ ((sessionMapper V vs).remapWithName pfx a).1)
    ∧ (sessionMapper V vs).forward = firstSeen [] vs
    ∧ (∀ (i : Nat) (v : V), (sessionMapper V vs).forward[i]? = some v
        → ((sessionMapper V vs).remap v).1 = i)
    ∧ (sessionMapper V vs).getEntries pfx
        = (firstSeen [] vs).enum.map (fun p => (nameFromNumber pfx p.1, p.2)) := by
  have hcoh := sessionMapper_coherent V vs
  refine ⟨?_, ?_, ?_, ?_, ?_⟩
  · intro v
    have h := (sessionMapper V vs).remap_remap v
    simp only [ResourceMapper.remapWithName, h]
  · intro a b hab
    have ha1 : alookup ((sessionMapper V vs).remap a).2.backward a
        = some ((sessionMapper V vs).remap a).1 :=
      (sessionMapper V vs).alookup_remap_self a
    have hb2 : alookup (((sessionMapper V vs).remap a).2.remap b).2.backward b
        = some (((sessionMapper V vs).remap a).2.remap b).1 :=
      ((sessionMapper V vs).remap a).2.alookup_remap_self b
    have ha2 : alookup (((sessionMapper V vs).remap a).2.remap b).2.backward a
        = some ((sessionMapper V vs).remap a).1 :=
      ResourceMapper.alookup_remap_preserved _ b a _ ha1
    have hcoh2 : (((sessionMapper V vs).remap a).2.remap b).2.Coherent :=
      ResourceMapper.coherent_remap (ResourceMapper.coherent_remap hcoh a) b
    have hne := ResourceMapper.coherent_distinct hcoh2 hb2 ha2 (Ne.symm hab)
    refine ⟨hne, ?_⟩
    simp only [ResourceMapper.remapWithName]
    intro hn
    exact hne (nameFromNumber_injective pfx hn)
  · exact ResourceMapper.remapAll_forward vs (ResourceMapper.new V)
      (ResourceMapper.coherent_new V)
  · intro i v hi
    have hl := (hcoh v i).mpr hi
    rw [(sessionMapper V vs).remap_of_lookup v i hl]
  · have hf : (sessionMapper V vs).forward = firstSeen [] vs :=
      ResourceMapper.remapAll_forward vs (ResourceMapper.new V)
        (ResourceMapper.coherent_new V)
    rw [ResourceMapper.getEntries, hf]

/-- Witness for C6, mirroring the source's own `test_cs_resource_mapper` unit
test with two distinct color-space values 0 (SRGB) and 1 (D65Gray) registered
as 0, 1, 0: the two values keep distinct numbers, and `forward` holds the
first-seen order `[0, 1]`. -/
theorem resourceMapper_dedup_first_seen_order_witness :
    ((((sessionMapper Nat [0, 1, 0]).remap 0).2.remap 1).1
        ≠ ((sessionMapper Nat [0, 1, 0]).remap 0).1)
    ∧ (sessionMapper Nat [0, 1, 0]).forward = firstSeen [] [0, 1, 0]
    ∧ firstSeen [] [0, 1, 0] = [0, 1] :=
  ⟨((resourceMapper_dedup_first_seen_order Nat "cs" [0, 1, 0]).2.1 0 1
      (by decide)).1,
   (resourceMapper_dedup_first_seen_order Nat "cs" [0, 1, 0]).2.2.1,
   by decide⟩

/-! ## SerializerContext object cache (`src/src/serialize.rs`)

`SerializerContext::add` deduplicates registered objects by content hash:
`hash_item` is deterministic on structurally equal values, so it is modelled
as a function `h : V → Nat` (SipHash-1-3/128 collision freedom enters only as
an explicit injectivity hypothesis where the claim needs it).  `prod_log`
instruments the calls to `Object::serialize_into` (object, root_ref), in call
order, to observe production work; the `chunk`/`fonts` fields of the source
struct carry the produced bytes and are not needed by the cache protocol. -/

structure SerializerContext (V : Type) where
  cached_mappings : List (Nat × Nat)
  cur_ref : Nat
  prod_log : List (V × Nat)
deriving Repr

/-- `SerializerContext::new`: empty cache, reference counter at `Ref::new(1)`. -/
def SerializerContext.new (V : Type) : SerializerContext V :=
  { cached_mappings := [], cur_ref := 1, prod_log := [] }

/-- `SerializerContext::add`: on a cache hit return the existing reference with
no side effects; otherwise allocate `new_ref`, insert into the cache, and run
`serialize_into` (logged). -/
def SerializerContext.add {V : Type} (h : V → Nat)
    (sc : SerializerContext V) (object : V) : Nat × SerializerContext V :=
  match alookup sc.cached_mappings (h object) with
  | some r => (r, sc)
  | none =>
    let root_ref := sc.cur_ref
    (root_ref,
      { cached_mappings := (h object, root_ref) :: sc.cached_mappings,
        cur_ref := sc.cur_ref + 1,
        prod_log := sc.prod_log ++ [(object, root_ref)] })

/-- A sequence of registrations. -/
def SerializerContext.addAll {V : Type} (h : V → Nat)
    (sc : SerializerContext V) (vs : List V) : SerializerContext V :=
  vs.foldl (fun s v => (SerializerContext.add h s v).2) sc

theorem SerializerContext.alookup_add_self {V : Type} (h : V → Nat)
    (sc : SerializerContext V) (v : V) :
    alookup (SerializerContext.add h sc v).2.cached_mappings (h v)
      = some (SerializerContext.add h sc v).1 := by
  unfold SerializerContext.add
  cases hl : alookup sc.cached_mappings (h v) with
  | some r => exact hl
  | none => simp [alookup]

theorem SerializerContext.alookup_add_preserved {V : Type} (h : V → Nat)
    (sc : SerializerContext V) (v : V) (k r : Nat)
    (hk : alookup sc.cached_mappings k = some r) :
    alookup (SerializerContext.add h sc v).2.cached_mappings k = some r := by
  unfold SerializerContext.add
  cases hl : alookup sc.cached_mappings (h v) with
  | some r2 => exact hk
  | none =>
    have hne : k ≠ h v := by
      intro he; rw [he, hl] at hk; exact Option.noConfusion hk
    simpa [alookup, hne] using hk

theorem SerializerContext.alookup_addAll_preserved {V : Type} (h : V → Nat) :
    ∀ (ws : List V) (sc : SerializerContext V) (k r : Nat),
      alookup sc.cached_mappings k = some r →
      alookup (SerializerContext.addAll h sc ws).cached_mappings k = some r := by
  intro ws
  induction ws with
  | nil => intro sc k r hk; exact hk
  | cons w rest ih =>
    intro sc k r hk
    exact ih _ k r (SerializerContext.alookup_add_preserved h sc w k r hk)

theorem SerializerContext.add_of_hit {V : Type} (h : V → Nat)
    (sc : SerializerContext V) (v : V) (r : Nat)
    (hk : alookup sc.cached_mappings (h v) = some r) :
    SerializerContext.add h sc v = (r, sc) := by
  unfold SerializerContext.add
  rw [hk]

/-- The cache/log coherence invariant: a hash key is cached exactly when some
production in the log has it, and no hash key is produced twice. -/
def SerializerContext.Inv {V : Type} (h : V → Nat) (sc : SerializerContext V) : Prop :=
  (∀ k, (alookup sc.cached_mappings k).isSome ↔ ∃ p ∈ sc.prod_log, h p.1 = k)
    ∧ (sc.prod_log.map (fun p => h p.1)).Nodup

theorem SerializerContext.inv_new {V : Type} (h : V → Nat) :
    SerializerContext.Inv h (SerializerContext.new V) := by
  constructor
  · intro k
    simp [SerializerContext.new, alookup]
  · simp [SerializerContext.new]

theorem SerializerContext.inv_add {V : Type} (h : V → Nat)
    {sc : SerializerContext V} (hi : SerializerContext.Inv h sc) (v : V) :
    SerializerContext.Inv h (SerializerContext.add h sc v).2 := by
  unfold SerializerContext.add
  cases hl : alookup sc.cached_mappings (h v) with
  | some r => exact hi
  | none =>
    have hnotin : ¬∃ p ∈ sc.prod_log, h p.1 = h v := by
      intro hex
      have := (hi.1 (h v)).mpr hex
      rw [hl] at this
      simp at this
    constructor
    · intro k
      simp only [alookup]
      by_cases hk : k = h v
      · subst hk
        simp only [if_pos rfl]
        constructor
        · intro _
          exact ⟨(v, sc.cur_ref), by simp, rfl⟩
        · intro _
          rfl
      · rw [if_neg hk]
        rw [hi.1 k]
        constructor
        · intro ⟨p, hp, hpk⟩
          exact ⟨p, by simp [hp], hpk⟩
        · intro ⟨p, hp, hpk⟩
          simp only [List.mem_append, List.mem_singleton] at hp
          rcases hp with hp | hp
          · exact ⟨p, hp, hpk⟩
          · exfalso
            subst hp
            exact hk hpk.symm
    · simp only [List.map_append, List.map_cons, List.map_nil]
      rw [List.nodup_append]
      refine ⟨hi.2, List.nodup_singleton _, ?_⟩
      intro k hk1 hk2
      simp only [List.mem_singleton] at hk2
      subst hk2
      simp only [List.mem_map] at hk1
      obtain ⟨p, hp, hpk⟩ := hk1
      exact hnotin ⟨p, hp, hpk⟩

theorem SerializerContext.log_mono_add {V : Type} (h : V → Nat)
    (sc : SerializerContext V) (v : V) (p : V × Nat) (hp : p ∈ sc.prod_log) :
    p ∈ (SerializerContext.add h sc v).2.prod_log := by
  unfold SerializerContext.add
  cases alookup sc.cached_mappings (h v) with
  | some r => exact hp
  | none => simp [hp]

theorem SerializerContext.log_mono_addAll {V : Type} (h : V → Nat) :
    ∀ (ws : List V) (sc : SerializerContext V) (p : V × Nat), p ∈ sc.prod_log →
      p ∈ (SerializerContext.addAll h sc ws).prod_log := by
  intro ws
  induction ws with
  | nil => intro sc p hp; exact hp
  | cons w rest ih =>
    intro sc p hp
    exact ih _ p (SerializerContext.log_mono_add h sc w p hp)

theorem SerializerContext.inv_addAll {V : Type} (h : V → Nat) :
    ∀ (ws : List V) (sc : SerializerContext V), SerializerContext.Inv h sc →
      SerializerContext.Inv h (SerializerContext.addAll h sc ws) := by
  intro ws
  induction ws with
  | nil => intro sc hi; exact hi
  | cons w rest ih =>
    intro sc hi
    exact ih _ (SerializerContext.inv_add h hi w)

theorem SerializerContext.mem_log_addAll {V : Type} (h : V → Nat)
    (hinj : Function.Injective h) :
    ∀ (vs : List V) (sc : SerializerContext V), SerializerContext.Inv h sc →
      ∀ v ∈ vs, ∃ r, (v, r) ∈ (SerializerContext.addAll h sc vs).prod_log := by
  intro vs
  induction vs with
  | nil => intro sc _ v hv; exact absurd hv (List.not_mem_nil v)
  | cons w rest ih =>
    intro sc hi v hv
    rcases List.mem_cons.mp hv with hv | hv
    · subst hv
      cases hl : alookup sc.cached_mappings (h v) with
      | some r =>
        have hsome : (alookup sc.cached_mappings (h v)).isSome = true := by
          rw [hl]; rfl
        obtain ⟨p, hp, hpk⟩ := (hi.1 (h v)).mp hsome
        have hpv : p.1 = v := hinj hpk
        refine ⟨p.2, ?_⟩
        have hstep : p ∈ (SerializerContext.add h sc v).2.prod_log :=
          SerializerContext.log_mono_add h sc v p hp
        have hfin := SerializerContext.log_mono_addAll h rest _ p hstep
        have hpe : p = (v, p.2) := by
          obtain ⟨p1, p2⟩ := p
          simp only at hpv ⊢
          rw [hpv]
        rw [← hpe]
        exact hfin
      | none =>
        refine ⟨sc.cur_ref, ?_⟩
        apply SerializerContext.log_mono_addAll h rest
        show (v, sc.cur_ref) ∈ (SerializerContext.add h sc v).2.prod_log
        unfold SerializerContext.add
        rw [hl]
        simp
    · exact ih _ (SerializerContext.inv_add h hi w) v hv

/-- **C3.** `SerializerContext::add` deduplicates by content: once an object
`a` has been registered, any later registration of a structurally equal object
(after arbitrary interleaved registrations `ws`) returns the very same
reference and leaves the context completely unchanged — no fresh reference, no
cache growth, no `serialize_into` call; and when the content hash is injective
(collision freedom), every registered object's equivalence class is produced
exactly once: it occurs in the production log, and no object value is produced
twice over a whole session started from a fresh context. -/
theorem serializerContext_add_dedup (V : Type) (h : V → Nat) :
    (∀ (sc : SerializerContext V) (a : V) (ws : List V),
      SerializerContext.add h
          (SerializerContext.addAll h (SerializerContext.add h sc a).2 ws) a
        = ((SerializerContext.add h sc a).1,
            SerializerContext.addAll h (SerializerContext.add h sc a).2 ws))
    ∧ (Function.Injective h → ∀ (vs : List V), ∀ v ∈ vs,
        (∃ r, (v, r) ∈ (SerializerContext.addAll h (SerializerContext.new V) vs).prod_log)
        ∧ ((SerializerContext.addAll h (SerializerContext.new V) vs).prod_log.map
            Prod.fst).Nodup) := by
  constructor
  · intro sc a ws
    have h1 := SerializerContext.alookup_add_self h sc a
    have h2 := SerializerContext.alookup_addAll_preserved h ws _ _ _ h1
    exact SerializerContext.add_of_hit h _ a _ h2
  · intro hinj vs v hv
    have hinv := SerializerContext.inv_addAll h vs _ (SerializerContext.inv_new h)
    refine ⟨SerializerContext.mem_log_addAll h hinj vs _ (SerializerContext.inv_new h) v hv, ?_⟩
    have hkeys := hinv.2
    have : ((SerializerContext.addAll h (SerializerContext.new V) vs).prod_log.map
        Prod.fst).map h
        = (SerializerContext.addAll h (SerializerContext.new V) vs).prod_log.map
            (fun p => h p.1) := by
      rw [List.map_map]
      rfl
    apply List.Nodup.of_map h
    rw [this]
    exact hkeys

/-- Witness for C3: with the identity hash over `Nat`, registering 5, then 7,
then 5 again: the repeated registration returns the original reference 1 and
leaves the context untouched, and 5 was produced (logged) once. -/
theorem serializerContext_add_dedup_witness :
    SerializerContext.add (fun n => n)
        (SerializerContext.addAll (fun n => n)
          (SerializerContext.add (fun n => n) (SerializerContext.new Nat) 5).2 [7]) 5
      = (1, SerializerContext.addAll (fun n => n)
          (SerializerContext.add (fun n => n) (SerializerContext.new Nat) 5).2 [7])
    ∧ (∃ r, (5, r) ∈ (SerializerContext.addAll (fun n => n)
        (SerializerContext.new Nat) [5, 7, 5]).prod_log) := by
  constructor
  · have ht := (serializerContext_add_dedup Nat (fun n => n)).1
      (SerializerContext.new Nat) 5 [7]
    have h1 : (SerializerContext.add (fun n => n) (SerializerContext.new Nat) 5).1 = 1 := rfl
    rw [h1] at ht
    exact ht
  · exact ((serializerContext_add_dedup Nat (fun n => n)).2
      (fun a b hab => hab) [5, 7, 5] 5 (by decide)).1

/-! ## Stream filters (`src/crates/krilla/src/stream.rs`)

Bytes are `Nat`s (< 256 in practice).  `deflate_encode` delegates to an
external codec (`miniz_oxide`), so the whole development is parametric in a
`deflate : List Nat → List Nat` function; any theorem quantified over all
`deflate` can in particular never depend on compression being applied.
`StreamFilter::apply` panics on `Dct`; the panic is modelled as `none`. -/

structure SerializeSettings where
  compress_content_streams : Bool
  ascii_compatible : Bool
deriving DecidableEq, Repr

inductive StreamFilter
  | flate
  | asciiHex
  | dct
deriving DecidableEq, Repr

/-- `StreamFilter::can_apply`. -/
def StreamFilter.canApply : StreamFilter → Bool
  | .flate => true
  | .asciiHex => true
  | .dct => false

/-- One output code of `format!("{:02X}", byte)`: uppercase hex digit. -/
def hexDigitCode (d : Nat) : Nat := if d < 10 then 48 + d else 55 + d

/-- `hex_encode`: two uppercase hex chars per byte, a newline (10) after every
35th byte (`index % 35 == 34`). -/
def hexEncode (data : List Nat) : List Nat :=
  (data.enum.map (fun p =>
    [hexDigitCode (p.2 / 16 % 16), hexDigitCode (p.2 % 16)]
      ++ if p.1 % 35 = 34 then [10] else [])).flatten

/-- `StreamFilter::apply`; `none` models the `panic!` in the `Dct` arm. -/
def StreamFilter.apply (deflate : List Nat → List Nat) :
    StreamFilter → List Nat → Option (List Nat)
  | .flate, content => some (deflate content)
  | .asciiHex, content => some (hexEncode content)
  | .dct, _ => none

/-- `StreamFilters`: the declared-filter accumulator. -/
inductive StreamFilters
  | nofilters
  | single (f : StreamFilter)
  | multiple (fs : List StreamFilter)
deriving DecidableEq, Repr

/-- `StreamFilters::add`. -/
def StreamFilters.add (s : StreamFilters) (f : StreamFilter) : StreamFilters :=
  match s with
  | .nofilters => .single f
  | .single cur => .multiple [cur, f]
  | .multiple cur => .multiple (cur ++ [f])

structure FilterStream where
  content : List Nat
  filters : StreamFilters
deriving DecidableEq, Repr

/-- `FilterStream::empty`. -/
def FilterStream.emptyOf (content : List Nat) : FilterStream :=
  { content := content, filters := .nofilters }

/-- `FilterStream::add_filter`: apply the transform only when the filter
supports application (`can_apply`), but always declare it. -/
def FilterStream.addFilter (deflate : List Nat → List Nat)
    (fs : FilterStream) (f : StreamFilter) : Option FilterStream :=
  if f.canApply then
    match f.apply deflate fs.content with
    | some c => some { content := c, filters := fs.filters.add f }
    | none => none
  else
    some { fs with filters := fs.filters.add f }

/-- `FilterStream::new_from_content_stream`. -/
def FilterStream.new_from_content_stream (deflate : List Nat → List Nat)
    (content : List Nat) (ss : SerializeSettings) : Option FilterStream := do
  let fs := FilterStream.emptyOf content
  if ss.compress_content_streams then
    let fs ← fs.addFilter deflate .flate
    if ss.ascii_compatible then fs.addFilter deflate .asciiHex else some fs
  else
    some fs

/-- `FilterStream::new_from_binary_data`. -/
def FilterStream.new_from_binary_data (deflate : List Nat → List Nat)
    (content : List Nat) (ss : SerializeSettings) : Option FilterStream := do
  let fs := FilterStream.emptyOf content
  let fs ← fs.addFilter deflate .flate
  if ss.ascii_compatible then fs.addFilter deflate .asciiHex else some fs

/-- `FilterStream::new_from_jpeg_data`: declare `Dct`, then optionally
ASCII-armor. -/
def FilterStream.new_from_jpeg_data (deflate : List Nat → List Nat)
    (content : List Nat) (ss : SerializeSettings) : Option FilterStream := do
  let fs := FilterStream.emptyOf content
  let fs ← fs.addFilter deflate .dct
  if ss.ascii_compatible then fs.addFilter deflate .asciiHex else some fs

/-- `FilterStream::new_plain`. -/
def FilterStream.new_plain (deflate : List Nat → List Nat)
    (content : List Nat) (ss : SerializeSettings) : Option FilterStream := do
  let fs := FilterStream.emptyOf content
  if ss.ascii_compatible then fs.addFilter deflate .asciiHex else some fs

/-- **C9.** `new_from_jpeg_data` never re-compresses: for every `deflate`
codec, every byte sequence and every settings value, it succeeds (the `Dct`
panic branch of `StreamFilter::apply` is unreachable), the encoded data is the
input optionally transformed only by ASCII-hex armoring, and `Dct` is declared
(first) without being applied; moreover none of the other `FilterStream`
constructors can reach the panic branch either, and `can_apply` rejects `Dct`. -/
theorem filterStream_jpeg_never_recompresses
    (deflate : List Nat → List Nat) (content : List Nat) (ss : SerializeSettings) :
    (FilterStream.new_from_jpeg_data deflate content ss
      = some { content := if ss.ascii_compatible then hexEncode content else content,
               filters := if ss.ascii_compatible
                 then .multiple [.dct, .asciiHex] else .single .dct })
    ∧ (∃ fs, FilterStream.new_from_content_stream deflate content ss = some fs)
    ∧ (∃ fs, FilterStream.new_from_binary_data deflate content ss = some fs)
    ∧ (∃ fs, FilterStream.new_plain deflate content ss = some fs)
    ∧ StreamFilter.canApply .dct = false := by
  obtain ⟨compress, ascii⟩ := ss
  refine ⟨?_, ?_, ?_, ?_, rfl⟩
  · cases ascii <;>
      simp [FilterStream.new_from_jpeg_data, FilterStream.emptyOf,
        FilterStream.addFilter, StreamFilter.canApply, StreamFilter.apply,
        StreamFilters.add]
  · cases compress <;> cases ascii <;> exact ⟨_, rfl⟩
  · cases ascii <;> exact ⟨_, rfl⟩
  · cases ascii <;> exact ⟨_, rfl⟩

/-! ## Chunk container (`src/crates/krilla/src/chunk_container.rs`)

References (`pdf_writer::Ref`, an `i32` starting at 1 and only ever bumped)
are `Nat`s.  A `Chunk` is modelled by the references it defines (`refs()`, in
occurrence order), the references its object bodies use, and its byte length.
`Deferred<T>` resolves to its value at visit time and is transparent here;
`Deferred<KrillaResult<T>>` slots are `Except` values.  `OnceLock<Chunk>` is
an `Option Chunk` threaded through the visit. -/

inductive KrillaError
  | err (code : Nat)
deriving DecidableEq, Repr

inductive ValidationError
  | noDocumentTitle
  | noDocumentLanguage
  | other (code : Nat)
deriving DecidableEq, Repr

structure Chunk where
  defs : List Nat
  uses : List Nat
  len : Nat
deriving DecidableEq, Repr

structure EmbeddedPdfChunk where
  original_chunk : Chunk
  root_ref_mappings : List (Nat × Nat)
  new_chunk : Option Chunk
deriving DecidableEq, Repr

/-- The metadata fields `ChunkContainer::finish` reads for the modelled
behaviour (title and language checks, signature creation date); the
presentation-only fields (authors, dates, text direction, page layout,
document id) only feed the document-info/XMP writers. -/
structure Metadata where
  title : Option String
  language : Option String
  creation_date : Option Nat
deriving DecidableEq, Repr

structure PdfSig where
  name : String
  location : String
  reason : String
  contact_info : String
deriving DecidableEq, Repr

deriving instance DecidableEq for Except

structure ChunkContainer where
  page_tree : Option (Nat × Chunk)
  outline : Option (Nat × Chunk)
  page_label_tree : Option (Nat × Chunk)
  destination_profiles : Option (Nat × Chunk)
  struct_tree_root : Option (Nat × Chunk)
  struct_elements : List Chunk
  page_labels : List Chunk
  annotations : List Chunk
  fonts : List Chunk
  color_spaces : List Chunk
  icc_profiles : List Chunk
  destinations : List Chunk
  ext_g_states : List Chunk
  masks : List Chunk
  x_objects : List Chunk
  shading_functions : List Chunk
  patterns : List Chunk
  pages : List Chunk
  images : List (Except KrillaError Chunk)
  embedded_files : List Chunk
  embedded_pdfs : List (Except KrillaError EmbeddedPdfChunk)
  metadata : Option Metadata
deriving DecidableEq, Repr

/-- `chunk.renumber(|old| *remapper.entry(old).or_insert_with(|| sc.new_ref()))`
applied to a sequence of reference occurrences: pinned/known references map
through the table, unknown ones get the next counter value, which is recorded.
Returns the renumbered occurrences, the final table and the final counter. -/
def renumberRefs : List (Nat × Nat) → Nat → List Nat → List Nat × List (Nat × Nat) × Nat
  | m, counter, [] => ([], m, counter)
  | m, counter, r :: rest =>
    match alookup m r with
    | some v =>
      let p := renumberRefs m counter rest
      (v :: p.1, p.2)
    | none =>
      let p := renumberRefs ((r, counter) :: m) (counter + 1) rest
      (counter :: p.1, p.2)

/-- The renumbering of `EmbeddedPdfChunk::visit`'s `get_or_init` closure:
all reference occurrences of the original chunk (definitions first, then
uses) run through one shared `remapper` seeded with `root_ref_mappings`. -/
def EmbeddedPdfChunk.computeRenumbered (e : EmbeddedPdfChunk) (counter : Nat) :
    Chunk × List (Nat × Nat) × Nat :=
  let d := renumberRefs e.root_ref_mappings counter e.original_chunk.defs
  let u := renumberRefs d.2.1 d.2.2 e.original_chunk.uses
  (⟨d.1, u.1, e.original_chunk.len⟩, u.2.1, u.2.2)

/-- One visit of an embedded-PDF chunk: `new_chunk.get_or_init(...)` — reuse
the cached renumbered chunk if present, else compute and cache it. -/
def EmbeddedPdfChunk.visitStep (e : EmbeddedPdfChunk) (counter : Nat) :
    Chunk × EmbeddedPdfChunk × Nat :=
  match e.new_chunk with
  | some c => (c, e, counter)
  | none =>
    let r := e.computeRenumbered counter
    (r.1, { e with new_chunk := some r.1 }, r.2.2)

theorem renumberRefs_preserves :
    ∀ (rs : List Nat) (m : List (Nat × Nat)) (n : Nat) (k v : Nat),
      alookup m k = some v → alookup (renumberRefs m n rs).2.1 k = some v := by
  intro rs
  induction rs with
  | nil => intro m n k v hk; exact hk
  | cons r rest ih =>
    intro m n k v hk
    unfold renumberRefs
    cases hl : alookup m r with
    | some w =>
      exact ih m n k v hk
    | none =>
      apply ih
      have hkr : k ≠ r := by
        intro he; rw [he, hl] at hk; exact Option.noConfusion hk
      simpa [alookup, hkr] using hk

theorem renumberRefs_counter_le :
    ∀ (rs : List Nat) (m : List (Nat × Nat)) (n : Nat),
      n ≤ (renumberRefs m n rs).2.2 := by
  intro rs
  induction rs with
  | nil => intro m n; exact le_rfl
  | cons r rest ih =>
    intro m n
    unfold renumberRefs
    cases alookup m r with
    | some w => exact ih m n
    | none => exact le_trans (Nat.le_succ n) (ih _ _)

theorem renumberRefs_covers :
    ∀ (rs : List Nat) (m : List (Nat × Nat)) (n : Nat) (x : Nat), x ∈ rs →
      ∃ v, alookup (renumberRefs m n rs).2.1 x = some v := by
  intro rs
  induction rs with
  | nil => intro m n x hx; exact absurd hx (List.not_mem_nil x)
  | cons r rest ih =>
    intro m n x hx
    unfold renumberRefs
    cases hl : alookup m r with
    | some w =>
      rcases List.mem_cons.mp hx with hx | hx
      · subst hx
        exact ⟨w, renumberRefs_preserves rest m n x w hl⟩
      · exact ih m n x hx
    | none =>
      rcases List.mem_cons.mp hx with hx | hx
      · subst hx
        refine ⟨n, renumberRefs_preserves rest _ _ x n ?_⟩
        simp [alookup]
      · exact ih _ _ x hx

theorem renumberRefs_fresh_bounds :
    ∀ (rs : List Nat) (m : List (Nat × Nat)) (n : Nat) (x v : Nat),
      alookup m x = none → alookup (renumberRefs m n rs).2.1 x = some v →
      n ≤ v ∧ v < (renumberRefs m n rs).2.2 := by
  intro rs
  induction rs with
  | nil =>
    intro m n x v hx hv
    unfold renumberRefs at hv
    rw [hx] at hv
    exact absurd hv (by simp)
  | cons r rest ih =>
    intro m n x v hx hv
    unfold renumberRefs at hv ⊢
    cases hl : alookup m r with
    | some w =>
      rw [hl] at hv
      exact ih m n x v hx hv
    | none =>
      rw [hl] at hv
      by_cases hxr : x = r
      · subst hxr
        have hvv : v = n := by
          have hself : alookup ((x, n) :: m) x = some n := by simp [alookup]
          have := renumberRefs_preserves rest ((x, n) :: m) (n + 1) x n hself
          rw [this] at hv
          exact (Option.some.inj hv).symm
        subst hvv
        exact ⟨le_rfl, lt_of_lt_of_le (Nat.lt_succ_self v) (renumberRefs_counter_le rest _ _)⟩
      · have hx2 : alookup ((r, n) :: m) x = none := by simpa [alookup, hxr] using hx
        have := ih _ _ x v hx2 hv
        exact ⟨le_trans (Nat.le_succ n) this.1, this.2⟩

theorem renumberRefs_count_nodup :
    ∀ (rs : List Nat) (m : List (Nat × Nat)) (n : Nat), rs.Nodup →
      (renumberRefs m n rs).2.2
        = n + (rs.filter (fun x => (alookup m x).isNone)).length := by
  intro rs
  induction rs with
  | nil => intro m n _; simp [renumberRefs]
  | cons r rest ih =>
    intro m n hnd
    have hnd2 := (List.nodup_cons.mp hnd).2
    have hrnotin := (List.nodup_cons.mp hnd).1
    unfold renumberRefs
    cases hl : alookup m r with
    | some w =>
      have := ih m n hnd2
      simp only [List.filter_cons, hl, Option.isNone_some, Bool.false_eq_true, if_neg]
      simpa using this
    | none =>
      have hfil : rest.filter (fun x => (alookup ((r, n) :: m) x).isNone)
          = rest.filter (fun x => (alookup m x).isNone) := by
        apply List.filter_congr
        intro x hx
        have hxr : x ≠ r := by
          intro he; subst he; exact hrnotin hx
        simp [alookup, hxr]
      have := ih ((r, n) :: m) (n + 1) hnd2
      rw [hfil] at this
      simp only [List.filter_cons, hl]
      simp only [Option.isNone_none, if_pos]
      rw [this]
      simp only [List.length_cons]
      omega

theorem alookup_of_mem_nodup {α β : Type} [DecidableEq α] :
    ∀ (m : List (α × β)) (p : α × β), p ∈ m → (m.map Prod.fst).Nodup →
      alookup m p.1 = some p.2 := by
  intro m
  induction m with
  | nil => intro p hp _; exact absurd hp (List.not_mem_nil p)
  | cons q rest ih =>
    intro p hp hnd
    simp only [List.map_cons, List.nodup_cons] at hnd
    rcases List.mem_cons.mp hp with hp | hp
    · subst hp
      simp [alookup]
    · have hne : p.1 ≠ q.1 := by
        intro he
        exact hnd.1 (he ▸ List.mem_map_of_mem Prod.fst hp)
      simp only [alookup, if_neg hne]
      exact ih p hp hnd.2

theorem renumberRefs_not_mem :
    ∀ (rs : List Nat) (m : List (Nat × Nat)) (n : Nat) (x : Nat), x ∉ rs →
      alookup (renumberRefs m n rs).2.1 x = alookup m x := by
  intro rs
  induction rs with
  | nil => intro m n x _; rfl
  | cons r rest ih =>
    intro m n x hx
    have hxr : x ≠ r := fun he => hx (he ▸ List.mem_cons_self r rest)
    have hxrest : x ∉ rest := fun hh => hx (List.mem_cons_of_mem r hh)
    unfold renumberRefs
    cases hl : alookup m r with
    | some w => exact ih m n x hxrest
    | none =>
      rw [ih _ _ x hxrest]
      simp [alookup, hxr]

/-- **C4.** Renumbering an embedded foreign-document chunk: every pinned
reference of `root_ref_mappings` maps to its pre-assigned host reference;
every other occurring reference gets a freshly minted host reference drawn
from the serializer counter; with all occurring references distinct, the
counter advances by exactly the number of distinct non-pinned references (so
2 pinned out of 5 total gives exactly 3 fresh allocations); and the result is
memoized into `new_chunk`, so a second visit reuses it without recomputation
and without touching the counter. -/
theorem embeddedPdf_remap_once_pinned_fresh (e : EmbeddedPdfChunk) (counter : Nat)
    (hkeys : (e.root_ref_mappings.map Prod.fst).Nodup)
    (hcache : e.new_chunk = none) :
    (∀ p ∈ e.root_ref_mappings, alookup (e.computeRenumbered counter).2.1 p.1 = some p.2)
    ∧ (∀ x ∈ e.original_chunk.defs ++ e.original_chunk.uses,
        alookup e.root_ref_mappings x = none →
        ∃ v, alookup (e.computeRenumbered counter).2.1 x = some v
          ∧ counter ≤ v ∧ v < (e.computeRenumbered counter).2.2)
    ∧ ((e.original_chunk.defs ++ e.original_chunk.uses).Nodup →
        (e.computeRenumbered counter).2.2 = counter
          + ((e.original_chunk.defs ++ e.original_chunk.uses).filter
              (fun x => (alookup e.root_ref_mappings x).isNone)).length)
    ∧ e.visitStep counter
        = ((e.computeRenumbered counter).1,
            { e with new_chunk := some (e.computeRenumbered counter).1 },
            (e.computeRenumbered counter).2.2)
    ∧ (∀ c2 : Nat,
        EmbeddedPdfChunk.visitStep
            { e with new_chunk := some (e.computeRenumbered counter).1 } c2
          = ((e.computeRenumbered counter).1,
              { e with new_chunk := some (e.computeRenumbered counter).1 }, c2)) := by
  set ds := e.original_chunk.defs
  set us := e.original_chunk.uses
  set m0 := e.root_ref_mappings
  have hd : e.computeRenumbered counter
      = (⟨(renumberRefs m0 counter ds).1,
          (renumberRefs (renumberRefs m0 counter ds).2.1 (renumberRefs m0 counter ds).2.2 us).1,
          e.original_chunk.len⟩,
         (renumberRefs (renumberRefs m0 counter ds).2.1 (renumberRefs m0 counter ds).2.2 us).2.1,
         (renumberRefs (renumberRefs m0 counter ds).2.1 (renumberRefs m0 counter ds).2.2 us).2.2) := rfl
  set m1 := (renumberRefs m0 counter ds).2.1 with hm1
  set n1 := (renumberRefs m0 counter ds).2.2 with hn1
  refine ⟨?_, ?_, ?_, ?_, ?_⟩
  · intro p hp
    rw [hd]
    exact renumberRefs_preserves us m1 n1 p.1 p.2
      (renumberRefs_preserves ds m0 counter p.1 p.2 (alookup_of_mem_nodup m0 p hp hkeys))
  · intro x hx hx0
    rw [hd]
    simp only
    rcases List.mem_append.mp hx with hxd | hxu
    · obtain ⟨v, hv⟩ := renumberRefs_covers ds m0 counter x hxd
      have hb := renumberRefs_fresh_bounds ds m0 counter x v hx0 hv
      refine ⟨v, renumberRefs_preserves us m1 n1 x v hv, hb.1, ?_⟩
      exact lt_of_lt_of_le hb.2 (renumberRefs_counter_le us m1 n1)
    · cases hvm1 : alookup m1 x with
      | some v =>
        have hb := renumberRefs_fresh_bounds ds m0 counter x v hx0 hvm1
        refine ⟨v, renumberRefs_preserves us m1 n1 x v hvm1, hb.1, ?_⟩
        exact lt_of_lt_of_le hb.2 (renumberRefs_counter_le us m1 n1)
      | none =>
        obtain ⟨v, hv⟩ := renumberRefs_covers us m1 n1 x hxu
        have hb := renumberRefs_fresh_bounds us m1 n1 x v hvm1 hv
        exact ⟨v, hv, le_trans (renumberRefs_counter_le ds m0 counter) hb.1, hb.2⟩
  · intro hnd
    rw [hd]
    simp only
    obtain ⟨hndd, hndu, hdisj⟩ := List.nodup_append.mp hnd
    have hc1 : n1 = counter + (ds.filter (fun x => (alookup m0 x).isNone)).length :=
      renumberRefs_count_nodup ds m0 counter hndd
    have hfil : us.filter (fun x => (alookup m1 x).isNone)
        = us.filter (fun x => (alookup m0 x).isNone) := by
      apply List.filter_congr
      intro x hxu
      have hxnd : x ∉ ds := fun hxd => hdisj hxd hxu
      rw [hm1, renumberRefs_not_mem ds m0 counter x hxnd]
    have hc2 := renumberRefs_count_nodup us m1 n1 hndu
    rw [hfil] at hc2
    rw [hc2, hc1, List.filter_append, List.length_append]
    omega
  · unfold EmbeddedPdfChunk.visitStep
    rw [hcache]
  · intro c2
    rfl

/-- Witness for C4: a foreign chunk with occurring references 1, 2, 3 (defined)
and 4, 5 (used), of which 1 and 4 are pinned to host references 100 and 101;
remapping from counter 50 keeps the pinned targets and mints exactly 3 fresh
references, landing the counter at 53. -/
theorem embeddedPdf_remap_once_pinned_fresh_witness :
    alookup ((⟨⟨[1, 2, 3], [4, 5], 9⟩, [(1, 100), (4, 101)], none⟩
        : EmbeddedPdfChunk).computeRenumbered 50).2.1 1 = some 100
    ∧ ((⟨⟨[1, 2, 3], [4, 5], 9⟩, [(1, 100), (4, 101)], none⟩
        : EmbeddedPdfChunk).computeRenumbered 50).2.2 = 53 := by
  constructor
  · exact (embeddedPdf_remap_once_pinned_fresh
      ⟨⟨[1, 2, 3], [4, 5], 9⟩, [(1, 100), (4, 101)], none⟩ 50
      (by decide) rfl).1 (1, 100) (by decide)
  · have h := (embeddedPdf_remap_once_pinned_fresh
      ⟨⟨[1, 2, 3], [4, 5], 9⟩, [(1, 100), (4, 101)], none⟩ 50
      (by decide) rfl).2.2.1 (by decide)
    rw [h]
    decide

/-- Chunks contributed by an `Option<(Ref, Chunk)>` field. -/
def visitOptPair : Option (Nat × Chunk) → List Chunk
  | none => []
  | some p => [p.2]

/-- `Visit for KrillaResult<Chunk>` over a `Vec`: propagate the first error in
order, else collect the chunks. -/
def visitResults : List (Except KrillaError Chunk) → Except KrillaError (List Chunk)
  | [] => .ok []
  | x :: rest =>
    match x with
    | .error e => .error e
    | .ok c =>
      match visitResults rest with
      | .error e => .error e
      | .ok cs => .ok (c :: cs)

/-- Visiting the `embedded_pdfs` field: propagate the first error in order;
otherwise run each chunk's `get_or_init` step, threading the serializer
counter, and return the visited chunks, the updated (memoized) slots and the
final counter. -/
def visitEmbedded : List (Except KrillaError EmbeddedPdfChunk) → Nat →
    Except KrillaError (List Chunk × List (Except KrillaError EmbeddedPdfChunk) × Nat)
  | [], counter => .ok ([], [], counter)
  | x :: rest, counter =>
    match x with
    | .error e => .error e
    | .ok epc =>
      let s := epc.visitStep counter
      match visitEmbedded rest s.2.2 with
      | .error e => .error e
      | .ok (cs, ys, c2) => .ok (s.1 :: cs, .ok s.2.1 :: ys, c2)

/-- The fixed traversal order of `Visit for ChunkContainer` over the
always-ready fields. -/
def ChunkContainer.baseChunks (cc : ChunkContainer) : List Chunk :=
  visitOptPair cc.page_tree ++ visitOptPair cc.outline
    ++ visitOptPair cc.page_label_tree ++ visitOptPair cc.destination_profiles
    ++ visitOptPair cc.struct_tree_root ++ cc.struct_elements ++ cc.page_labels
    ++ cc.annotations ++ cc.fonts ++ cc.color_spaces ++ cc.icc_profiles
    ++ cc.destinations ++ cc.ext_g_states ++ cc.masks ++ cc.x_objects
    ++ cc.shading_functions ++ cc.patterns ++ cc.pages

/-- `ChunkContainer::visit`: all chunks in the fixed field order, resolving
deferred fallible slots (`images`, `embedded_pdfs`) and memoizing embedded-PDF
renumbering.  Returns the visited chunks in order, the container with
`OnceLock` caches filled, and the serializer counter. -/
def ChunkContainer.visit (cc : ChunkContainer) (counter : Nat) :
    Except KrillaError (List Chunk × ChunkContainer × Nat) :=
  match visitResults cc.images with
  | .error e => .error e
  | .ok imgs =>
    match visitEmbedded cc.embedded_pdfs counter with
    | .error e => .error e
    | .ok (embCs, emb2, c2) =>
      .ok (cc.baseChunks ++ imgs ++ cc.embedded_files ++ embCs,
           { cc with embedded_pdfs := emb2 }, c2)

/-- `HashMap::insert`: overwrite an existing binding, else add one. -/
def hmInsert (m : List (Nat × Nat)) (k v : Nat) : List (Nat × Nat) :=
  match alookup m k with
  | some _ => m.map (fun p => if p.1 = k then (k, v) else p)
  | none => m ++ [(k, v)]

/-- One step of the renumber pass: `remapper.insert(object_ref, remapped_ref.bump())`. -/
def remapStep (acc : List (Nat × Nat) × Nat) (r : Nat) : List (Nat × Nat) × Nat :=
  (hmInsert acc.1 r acc.2, acc.2 + 1)

/-- The renumber pass of `ChunkContainer::finish`: traverse the chunks in
order, assigning `remapped_ref` (starting at `Ref::new(1)`) to every defined
reference.  Returns the remapping table and the final counter. -/
def buildRemapperSt (chunks : List Chunk) : List (Nat × Nat) × Nat :=
  chunks.foldl (fun acc c => c.defs.foldl remapStep acc) ([], 1)

def buildRemapper (chunks : List Chunk) : List (Nat × Nat) :=
  (buildRemapperSt chunks).1

/-- Rewrite a reference sequence through the remapping table; `none` models
the panicking lookup `remapper[&old]` hitting a missing key. -/
def mapRefsOpt (m : List (Nat × Nat)) : List Nat → Option (List Nat)
  | [] => some []
  | r :: rest =>
    match alookup m r, mapRefsOpt m rest with
    | some v, some vs => some (v :: vs)
    | _, _ => none

/-- The write pass on one chunk: `chunk.renumber_into(&mut pdf, |old| remapper[&old])`
rewrites every reference occurrence (definition or use). -/
def Chunk.renumberOpt (m : List (Nat × Nat)) (c : Chunk) : Option Chunk :=
  match mapRefsOpt m c.defs, mapRefsOpt m c.uses with
  | some ds, some us => some ⟨ds, us, c.len⟩
  | _, _ => none

theorem alookup_map_ne (m : List (Nat × Nat)) (k v x : Nat) (hx : x ≠ k) :
    alookup (m.map fun p => if p.1 = k then (k, v) else p) x = alookup m x := by
  induction m with
  | nil => rfl
  | cons q rest ih =>
    simp only [List.map_cons]
    by_cases hq : q.1 = k
    · rw [if_pos hq]
      show (if x = k then some v
          else alookup (rest.map fun p => if p.1 = k then (k, v) else p) x)
        = if x = q.1 then some q.2 else alookup rest x
      rw [if_neg hx, ih, if_neg (show x ≠ q.1 by rw [hq]; exact hx)]
    · rw [if_neg hq]
      show (if x = q.1 then some q.2
          else alookup (rest.map fun p => if p.1 = k then (k, v) else p) x)
        = if x = q.1 then some q.2 else alookup rest x
      by_cases hxq : x = q.1
      · rw [if_pos hxq, if_pos hxq]
      · rw [if_neg hxq, if_neg hxq, ih]

theorem alookup_map_eq (m : List (Nat × Nat)) (k v : Nat)
    (hk : (alookup m k).isSome) :
    alookup (m.map fun p => if p.1 = k then (k, v) else p) k = some v := by
  induction m with
  | nil => simp [alookup] at hk
  | cons q rest ih =>
    simp only [List.map_cons]
    by_cases hq : q.1 = k
    · rw [if_pos hq]
      show (if k = k then some v
          else alookup (rest.map fun p => if p.1 = k then (k, v) else p) k)
        = some v
      rw [if_pos rfl]
    · rw [if_neg hq]
      have hk2 : (alookup rest k).isSome := by
        have he : alookup (q :: rest) k = alookup rest k := by
          show (if k = q.1 then some q.2 else alookup rest k) = alookup rest k
          rw [if_neg (show k ≠ q.1 from fun he2 => hq he2.symm)]
        rwa [he] at hk
      show (if k = q.1 then some q.2
          else alookup (rest.map fun p => if p.1 = k then (k, v) else p) k)
        = some v
      rw [if_neg (show k ≠ q.1 from fun he2 => hq he2.symm)]
      exact ih hk2

theorem alookup_hmInsert (m : List (Nat × Nat)) (k v x : Nat) :
    alookup (hmInsert m k v) x = if x = k then some v else alookup m x := by
  unfold hmInsert
  cases hl : alookup m k with
  | none =>
    rw [alookup_append]
    by_cases hx : x = k
    · subst hx
      rw [hl]
      simp [alookup]
    · rw [if_neg hx]
      cases ha : alookup m x with
      | none => simp [alookup, hx]
      | some w => simp
  | some w =>
    by_cases hx : x = k
    · subst hx
      rw [if_pos rfl]
      exact alookup_map_eq m x v (by rw [hl]; rfl)
    · rw [if_neg hx]
      exact alookup_map_ne m k v x hx

theorem foldl_defs_eq_flat :
    ∀ (chunks : List Chunk) (st : List (Nat × Nat) × Nat),
      chunks.foldl (fun acc c => c.defs.foldl remapStep acc) st
        = ((chunks.map Chunk.defs).flatten).foldl remapStep st := by
  intro chunks
  induction chunks with
  | nil => intro st; rfl
  | cons c rest ih =>
    intro st
    simp only [List.map_cons, List.flatten_cons, List.foldl_append]
    exact ih _

theorem buildRemapperSt_eq_flat (chunks : List Chunk) :
    buildRemapperSt chunks = ((chunks.map Chunk.defs).flatten).foldl remapStep ([], 1) :=
  foldl_defs_eq_flat chunks ([], 1)

theorem alookup_foldl_remapStep_isSome :
    ∀ (rs : List Nat) (st : List (Nat × Nat) × Nat) (x : Nat),
      (x ∈ rs ∨ (alookup st.1 x).isSome) →
      (alookup (rs.foldl remapStep st).1 x).isSome := by
  intro rs
  induction rs with
  | nil =>
    intro st x hx
    rcases hx with hx | hx
    · exact absurd hx (List.not_mem_nil x)
    · exact hx
  | cons r rest ih =>
    intro st x hx
    simp only [List.foldl_cons]
    apply ih
    by_cases hxr : x = r
    · right
      subst hxr
      simp [remapStep, alookup_hmInsert]
    · rcases hx with hx | hx
      · rcases List.mem_cons.mp hx with hx | hx
        · exact absurd hx hxr
        · exact Or.inl hx
      · right
        simpa [remapStep, alookup_hmInsert, hxr] using hx

/-- All references defined by any visited chunk are in the renumber table. -/
theorem alookup_buildRemapper_isSome (l : List Chunk) (r : Nat)
    (hr : r ∈ (l.map Chunk.defs).flatten) :
    (alookup (buildRemapper l) r).isSome := by
  unfold buildRemapper
  rw [buildRemapperSt_eq_flat]
  exact alookup_foldl_remapStep_isSome _ ([], 1) r (Or.inl hr)

theorem EmbeddedPdfChunk.visitStep_cached (e : EmbeddedPdfChunk) (c : Chunk)
    (n : Nat) (hc : e.new_chunk = some c) : e.visitStep n = (c, e, n) := by
  unfold EmbeddedPdfChunk.visitStep
  rw [hc]

theorem EmbeddedPdfChunk.visitStep_fills (e : EmbeddedPdfChunk) (n : Nat) :
    (e.visitStep n).2.1.new_chunk = some (e.visitStep n).1 := by
  unfold EmbeddedPdfChunk.visitStep
  cases hc : e.new_chunk with
  | some c => exact hc
  | none => rfl

theorem visitEmbedded_idem :
    ∀ (xs : List (Except KrillaError EmbeddedPdfChunk)) (counter : Nat)
      (cs : List Chunk) (ys : List (Except KrillaError EmbeddedPdfChunk)) (c2 : Nat),
      visitEmbedded xs counter = .ok (cs, ys, c2) →
      visitEmbedded ys c2 = .ok (cs, ys, c2) := by
  intro xs
  induction xs with
  | nil =>
    intro counter cs ys c2 hv
    unfold visitEmbedded at hv
    simp only [Except.ok.injEq, Prod.mk.injEq] at hv
    obtain ⟨h1, h2, h3⟩ := hv
    subst h1; subst h2; subst h3
    rfl
  | cons x rest ih =>
    intro counter cs ys c2 hv
    unfold visitEmbedded at hv
    cases x with
    | error e => exact absurd hv (by simp)
    | ok epc =>
      simp only at hv
      cases he : visitEmbedded rest (epc.visitStep counter).2.2 with
      | error e => rw [he] at hv; exact absurd hv (by simp)
      | ok t =>
        obtain ⟨cs2, ys2, c3⟩ := t
        rw [he] at hv
        simp only [Except.ok.injEq, Prod.mk.injEq] at hv
        obtain ⟨h1, h2, h3⟩ := hv
        subst h1; subst h2; subst h3
        have hstep := EmbeddedPdfChunk.visitStep_cached
          (epc.visitStep counter).2.1 (epc.visitStep counter).1 c3
          (EmbeddedPdfChunk.visitStep_fills epc counter)
        unfold visitEmbedded
        simp only [hstep]
        rw [ih _ _ _ _ he]

theorem ChunkContainer.visit_idem (cc : ChunkContainer) (counter : Nat)
    (l : List Chunk) (cc1 : ChunkContainer) (c1 : Nat)
    (hv : cc.visit counter = .ok (l, cc1, c1)) :
    cc1.visit c1 = .ok (l, cc1, c1) := by
  unfold ChunkContainer.visit at hv
  cases hi : visitResults cc.images with
  | error e => rw [hi] at hv; exact absurd hv (by simp)
  | ok imgs =>
    rw [hi] at hv
    cases he : visitEmbedded cc.embedded_pdfs counter with
    | error e => rw [he] at hv; exact absurd hv (by simp)
    | ok t =>
      obtain ⟨embCs, emb2, c2⟩ := t
      rw [he] at hv
      simp only [Except.ok.injEq, Prod.mk.injEq] at hv
      obtain ⟨h1, h2, h3⟩ := hv
      subst h1; subst h2; subst h3
      unfold ChunkContainer.visit
      have hi2 : visitResults ({ cc with embedded_pdfs := emb2 } : ChunkContainer).images
          = .ok imgs := hi
      rw [hi2]
      have he2 := visitEmbedded_idem cc.embedded_pdfs counter embCs emb2 c2 he
      have he3 : visitEmbedded ({ cc with embedded_pdfs := emb2 } : ChunkContainer).embedded_pdfs c2
          = .ok (embCs, emb2, c2) := he2
      rw [he3]
      rfl

/-- **C1.** In `ChunkContainer::finish`, the write pass revisits exactly the
chunks of the renumber pass (the embedded-PDF renumbering being memoized, the
second visit returns the same chunk list, the same container state and the
same serializer counter), and for every chunk visited, every reference that
occurs in it as a definition, or as a use of a reference defined by some
visited chunk, already has an entry in the remapping table built by the
renumber pass, so the lookup `remapper[&old]` cannot fail on it. -/
theorem chunkContainer_write_pass_lookups_succeed (cc : ChunkContainer)
    (counter : Nat) (l : List Chunk) (cc1 : ChunkContainer) (c1 : Nat)
    (hv : cc.visit counter = .ok (l, cc1, c1)) :
    cc1.visit c1 = .ok (l, cc1, c1)
    ∧ (∀ c ∈ l, ∀ r, (r ∈ c.defs ∨ (r ∈ c.uses ∧ ∃ c2 ∈ l, r ∈ c2.defs)) →
        (alookup (buildRemapper l) r).isSome) := by
  refine ⟨ChunkContainer.visit_idem cc counter l cc1 c1 hv, ?_⟩
  intro c hc r hr
  apply alookup_buildRemapper_isSome
  rcases hr with hr | ⟨_, c2, hc2, hr⟩
  · exact List.mem_flatten.mpr ⟨c.defs, List.mem_map_of_mem Chunk.defs hc, hr⟩
  · exact List.mem_flatten.mpr ⟨c2.defs, List.mem_map_of_mem Chunk.defs hc2, hr⟩

/-- Witness for C1: a container with a page tree, a page, an image and an
embedded foreign chunk (whose used reference 10 is defined by the page-tree
chunk after renumbering); the reference 10, used by the page chunk and defined
by the page-tree chunk, has an entry in the renumber table. -/
theorem chunkContainer_write_pass_lookups_succeed_witness :
    (alookup (buildRemapper
        [⟨[10], [], 3⟩, ⟨[11], [10], 4⟩, ⟨[12], [], 2⟩, ⟨[20], [30], 5⟩]) 10).isSome := by
  have h := chunkContainer_write_pass_lookups_succeed
    ⟨some (10, ⟨[10], [], 3⟩), none, none, none, none, [], [], [], [], [], [], [], [], [], [],
      [], [], [⟨[11], [10], 4⟩], [.ok ⟨[12], [], 2⟩], [],
      [.ok ⟨⟨[1], [2], 5⟩, [(1, 20)], none⟩], none⟩
    30
    [⟨[10], [], 3⟩, ⟨[11], [10], 4⟩, ⟨[12], [], 2⟩, ⟨[20], [30], 5⟩]
    ⟨some (10, ⟨[10], [], 3⟩), none, none, none, none, [], [], [], [], [], [], [], [], [], [],
      [], [], [⟨[11], [10], 4⟩], [.ok ⟨[12], [], 2⟩], [],
      [.ok ⟨⟨[1], [2], 5⟩, [(1, 20)], some ⟨[20], [30], 5⟩⟩], none⟩
    31 (by decide)
  exact h.2 ⟨[11], [10], 4⟩ (by decide) 10
    (Or.inr ⟨by decide, ⟨[10], [], 3⟩, by decide, by decide⟩)

theorem foldl_remapStep_fresh :
    ∀ (rs : List Nat) (m : List (Nat × Nat)) (n : Nat), rs.Nodup →
      (∀ r ∈ rs, alookup m r = none) →
      rs.foldl remapStep (m, n)
        = (m ++ rs.zip (List.range' n rs.length), n + rs.length) := by
  intro rs
  induction rs with
  | nil => intro m n _ _; simp [List.range']
  | cons r rest ih =>
    intro m n hnd hfree
    have hr : alookup m r = none := hfree r (List.mem_cons_self r rest)
    have hstep : remapStep (m, n) r = (m ++ [(r, n)], n + 1) := by
      simp only [remapStep]
      unfold hmInsert
      rw [hr]
    have hfree2 : ∀ x ∈ rest, alookup (m ++ [(r, n)]) x = none := by
      intro x hx
      rw [alookup_append]
      rw [hfree x (List.mem_cons_of_mem r hx)]
      have hxr : x ≠ r := by
        intro he
        subst he
        exact (List.nodup_cons.mp hnd).1 hx
      simp [alookup, hxr]
    simp only [List.foldl_cons, hstep]
    rw [ih (m ++ [(r, n)]) (n + 1) (List.nodup_cons.mp hnd).2 hfree2]
    simp only [List.length_cons, List.range'_succ, List.zip_cons_cons]
    rw [List.append_assoc]
    simp only [List.singleton_append]
    have harith : n + 1 + rest.length = n + (rest.length + 1) := by omega
    rw [harith]

theorem alookup_zip_range' :
    ∀ (rs : List Nat) (n : Nat), rs.Nodup → ∀ (i v : Nat), rs[i]? = some v →
      alookup (rs.zip (List.range' n rs.length)) v = some (n + i) := by
  intro rs
  induction rs with
  | nil => intro n _ i v hv; simp at hv
  | cons r rest ih =>
    intro n hnd i v hv
    simp only [List.length_cons, List.range'_succ, List.zip_cons_cons]
    match i with
    | 0 =>
      simp only [List.getElem?_cons_zero] at hv
      injection hv with hv
      subst hv
      simp [alookup]
    | i + 1 =>
      simp only [List.getElem?_cons_succ] at hv
      have hmem : v ∈ rest := List.getElem?_mem hv
      have hne : v ≠ r := by
        intro he
        exact (List.nodup_cons.mp hnd).1 (he ▸ hmem)
      simp only [alookup, if_neg hne]
      have hih := ih (n + 1) (List.nodup_cons.mp hnd).2 i v hv
      rw [hih]
      congr 1
      omega

theorem mapRefsOpt_eq_of_pointwise :
    ∀ (rs ys : List Nat) (m : List (Nat × Nat)), rs.length = ys.length →
      (∀ p ∈ rs.zip ys, alookup m p.1 = some p.2) →
      mapRefsOpt m rs = some ys := by
  intro rs
  induction rs with
  | nil =>
    intro ys m hlen _
    match ys, hlen with
    | [], _ => rfl
  | cons r rest ih =>
    intro ys m hlen hpt
    match ys, hlen with
    | y :: ys2, hlen =>
      have h0 : alookup m r = some y := hpt (r, y) (by simp [List.zip_cons_cons])
      have hrest := ih ys2 m (by simpa using hlen) (fun p hp =>
        hpt p (by simp [List.zip_cons_cons, hp]))
      unfold mapRefsOpt
      rw [h0, hrest]

/-- **C2.** For every successfully finalized document, the renumber pass
assigns output references sequentially from 1 in traversal order: provided no
two chunks define the same pre-remap reference (the invariant asserted by the
pass's `debug_assert`), the remapping table is exactly the traversal-ordered
defined references paired with 1, 2, ..., N; the i-th defined reference maps to
i+1; and rewriting all defined references of the output through the table
yields exactly the sequence 1, 2, ..., N — which has no duplicates, so each
final reference is defined exactly once. -/
theorem chunkContainer_renumber_sequential (cc : ChunkContainer) (counter : Nat)
    (l : List Chunk) (cc1 : ChunkContainer) (c1 : Nat)
    (hv : cc.visit counter = .ok (l, cc1, c1))
    (hnd : ((l.map Chunk.defs).flatten).Nodup) :
    buildRemapper l
      = ((l.map Chunk.defs).flatten).zip
          (List.range' 1 ((l.map Chunk.defs).flatten).length)
    ∧ (∀ (i r : Nat), ((l.map Chunk.defs).flatten)[i]? = some r →
        alookup (buildRemapper l) r = some (1 + i))
    ∧ (buildRemapper l).map Prod.fst = (l.map Chunk.defs).flatten
    ∧ (buildRemapper l).map Prod.snd
        = List.range' 1 ((l.map Chunk.defs).flatten).length
    ∧ (List.range' 1 ((l.map Chunk.defs).flatten).length).Nodup
    ∧ mapRefsOpt (buildRemapper l) ((l.map Chunk.defs).flatten)
        = some (List.range' 1 ((l.map Chunk.defs).flatten).length) := by
  set rs := (l.map Chunk.defs).flatten with hrs
  have hzip : buildRemapper l = rs.zip (List.range' 1 rs.length) := by
    unfold buildRemapper
    rw [buildRemapperSt_eq_flat, ← hrs,
      foldl_remapStep_fresh rs [] 1 hnd (fun r _ => rfl)]
    simp
  have hkeys : ((rs.zip (List.range' 1 rs.length)).map Prod.fst).Nodup := by
    rw [List.map_fst_zip rs _ (by simp)]
    exact hnd
  refine ⟨hzip, ?_, ?_, ?_, List.nodup_range' 1 rs.length, ?_⟩
  · intro i r hi
    rw [hzip]
    exact alookup_zip_range' rs 1 hnd i r hi
  · rw [hzip]
    exact List.map_fst_zip rs _ (by simp)
  · rw [hzip]
    exact List.map_snd_zip rs _ (by simp)
  · apply mapRefsOpt_eq_of_pointwise rs (List.range' 1 rs.length) (buildRemapper l)
      (by simp)
    intro p hp
    rw [hzip]
    exact alookup_of_mem_nodup _ p (hzip ▸ hp) hkeys

/-- Witness for C2: a container defining references 10, 11, 12 in traversal
order; the renumber pass maps them to 1, 2, 3. -/
theorem chunkContainer_renumber_sequential_witness :
    mapRefsOpt (buildRemapper [⟨[10], [], 3⟩, ⟨[11, 12], [10], 4⟩]) [10, 11, 12]
      = some [1, 2, 3] := by
  have h := chunkContainer_renumber_sequential
    ⟨some (10, ⟨[10], [], 3⟩), none, none, none, none, [], [], [], [], [], [], [], [], [], [],
      [], [], [⟨[11, 12], [10], 4⟩], [], [], [], none⟩
    7
    [⟨[10], [], 3⟩, ⟨[11, 12], [10], 4⟩]
    ⟨some (10, ⟨[10], [], 3⟩), none, none, none, none, [], [], [], [], [], [], [], [], [], [],
      [], [], [⟨[11, 12], [10], 4⟩], [], [], [], none⟩
    7 (by decide) (by decide)
  have h6 := h.2.2.2.2.2
  have he : (([⟨[10], [], 3⟩, ⟨[11, 12], [10], 4⟩] : List Chunk).map Chunk.defs).flatten
      = [10, 11, 12] := by decide
  rw [he] at h6
  have hr : List.range' 1 ([10, 11, 12] : List Nat).length = [1, 2, 3] := by decide
  rw [hr] at h6
  exact h6

/-- The error carried by a fallible slot, if any. -/
def exceptErr {α : Type} : Except KrillaError α → Option KrillaError
  | .error e => some e
  | .ok _ => none

/-- The first production failure in the fixed traversal order (fallible slots
exist only in the `images` and `embedded_pdfs` fields, visited in that order). -/
def ChunkContainer.firstError (cc : ChunkContainer) : Option KrillaError :=
  (cc.images.filterMap exceptErr ++ cc.embedded_pdfs.filterMap exceptErr).head?

/-- The `[0u8; 11110]` signature `Contents` placeholder with the
`BEEFFACE` marker bytes 190, 239, 250, 206 patched into its head. -/
def sigContentsBytes : List Nat :=
  ((((List.replicate 11110 0).set 0 190).set 1 239).set 2 250).set 3 206

/-- The fixed-width `ByteRange` placeholder `[88888888 88888888 88888888 88888888]`. -/
def byteRangePlaceholder : List Nat := [88888888, 88888888, 88888888, 88888888]

/-- Observable outcome of the catalog-assembly part of `ChunkContainer::finish`
(lines 148-368): which root structures were written, which extra references
were allocated from `remapped_ref`, and the signature placeholders. -/
structure CatalogOut where
  catalog_written : Bool
  meta_ref : Option Nat
  catalog_ref : Option Nat
  lang_set : Bool
  widget_id : Option Nat
  sig_id : Option Nat
  has_perms : Bool
  has_acro_form : Bool
  sig_contents : Option (List Nat)
  byte_range : Option (List Nat)
  counter_out : Nat
deriving DecidableEq, Repr

/-- The tail of `ChunkContainer::finish` after the two passes: the
missing-title check, and the catalog assembly with the language check and the
signature branch.  `counter` is the value of `remapped_ref` when the catalog
block is reached (`Metadata::serialize_document_info`, whose source is not
under `src/`, may have bumped it before; the claims only concern the
increments made here). -/
def ChunkContainer.finishTail (cc : ChunkContainer) (signer : Option PdfSig)
    (xmp_metadata : Bool) (counter : Nat) : CatalogOut × List ValidationError :=
  let missing_title :=
    match cc.metadata with
    | none => true
    | some m => m.title.isNone
  let d0 : List ValidationError :=
    if missing_title then [ValidationError.noDocumentTitle] else []
  if cc.page_tree.isSome || cc.outline.isSome || cc.page_label_tree.isSome
      || cc.destination_profiles.isSome || cc.struct_tree_root.isSome then
    let meta_ref : Option Nat := if xmp_metadata then some counter else none
    let c1 := if xmp_metadata then counter + 1 else counter
    let catalog_ref := c1
    let c2 := c1 + 1
    let lang := cc.metadata.bind (fun m => m.language)
    let d1 := d0 ++ (if lang.isNone then [ValidationError.noDocumentLanguage] else [])
    match signer, cc.metadata.bind (fun m => m.creation_date), cc.page_tree with
    | some _, some _, some _ =>
      ({ catalog_written := true, meta_ref := meta_ref, catalog_ref := some catalog_ref,
         lang_set := lang.isSome, widget_id := some c2, sig_id := some (c2 + 1),
         has_perms := true, has_acro_form := true,
         sig_contents := some sigContentsBytes, byte_range := some byteRangePlaceholder,
         counter_out := c2 + 2 }, d1)
    | _, _, _ =>
      ({ catalog_written := true, meta_ref := meta_ref, catalog_ref := some catalog_ref,
         lang_set := lang.isSome, widget_id := none, sig_id := none,
         has_perms := false, has_acro_form := false, sig_contents := none,
         byte_range := none, counter_out := c2 }, d1)
  else
    ({ catalog_written := false, meta_ref := none, catalog_ref := none,
       lang_set := false, widget_id := none, sig_id := none, has_perms := false,
       has_acro_form := false, sig_contents := none, byte_range := none,
       counter_out := counter }, d0)

/-- `ChunkContainer::finish`: renumber pass, write pass (rewriting every
reference through the table), then document-info/catalog assembly.  Returns
the rewritten chunks, the catalog outcome and the validation diagnostics, or
the first production failure. -/
def ChunkContainer.finish (cc : ChunkContainer) (signer : Option PdfSig)
    (xmp_metadata : Bool) (counter : Nat) :
    Except KrillaError (List (Option Chunk) × CatalogOut × List ValidationError) :=
  match cc.visit counter with
  | .error e => .error e
  | .ok (chunks1, cc1, c1) =>
    match cc1.visit c1 with
    | .error e => .error e
    | .ok (chunks2, _, _) =>
      let remapper := buildRemapper chunks1
      let t := cc1.finishTail signer xmp_metadata (buildRemapperSt chunks1).2
      .ok (chunks2.map (Chunk.renumberOpt remapper), t.1, t.2)

theorem visitResults_error_iff :
    ∀ (xs : List (Except KrillaError Chunk)) (e : KrillaError),
      visitResults xs = .error e ↔ (xs.filterMap exceptErr).head? = some e := by
  intro xs
  induction xs with
  | nil =>
    intro e
    simp [visitResults, List.filterMap]
  | cons x rest ih =>
    intro e
    cases x with
    | error e0 =>
      simp [visitResults, List.filterMap_cons, exceptErr]
    | ok c =>
      simp only [visitResults, List.filterMap_cons, exceptErr]
      cases hr : visitResults rest with
      | error e1 =>
        rw [(ih e1).mp hr]
        constructor
        · intro hh
          injection hh with hh
          rw [hh]
        · intro hh
          injection hh with hh
          rw [hh]
      | ok cs =>
        have hnone : ¬(rest.filterMap exceptErr).head? = some e := by
          intro hh
          rw [(ih e).mpr hh] at hr
          exact Except.noConfusion hr
        constructor
        · intro hh
          exact absurd hh (by simp)
        · intro hh
          exact absurd hh hnone

theorem visitResults_ok_of_no_error :
    ∀ (xs : List (Except KrillaError Chunk)),
      xs.filterMap exceptErr = [] → ∃ cs, visitResults xs = .ok cs := by
  intro xs
  induction xs with
  | nil => intro _; exact ⟨[], rfl⟩
  | cons x rest ih =>
    intro hfe
    cases x with
    | error e0 =>
      simp [List.filterMap_cons, exceptErr] at hfe
    | ok c =>
      simp only [List.filterMap_cons, exceptErr] at hfe
      obtain ⟨cs, hcs⟩ := ih hfe
      refine ⟨c :: cs, ?_⟩
      unfold visitResults
      rw [hcs]

theorem visitEmbedded_error_iff :
    ∀ (xs : List (Except KrillaError EmbeddedPdfChunk)) (n : Nat) (e : KrillaError),
      visitEmbedded xs n = .error e ↔ (xs.filterMap exceptErr).head? = some e := by
  intro xs
  induction xs with
  | nil =>
    intro n e
    simp [visitEmbedded, List.filterMap]
  | cons x rest ih =>
    intro n e
    cases x with
    | error e0 =>
      simp [visitEmbedded, List.filterMap_cons, exceptErr]
    | ok epc =>
      simp only [visitEmbedded, List.filterMap_cons, exceptErr]
      cases hr : visitEmbedded rest (epc.visitStep n).2.2 with
      | error e1 =>
        rw [(ih _ e1).mp hr]
        constructor
        · intro hh
          injection hh with hh
          rw [hh]
        · intro hh
          injection hh with hh
          rw [hh]
      | ok t =>
        obtain ⟨cs, ys, c2⟩ := t
        have hnone : ¬(rest.filterMap exceptErr).head? = some e := by
          intro hh
          rw [(ih _ e).mpr hh] at hr
          exact Except.noConfusion hr
        constructor
        · intro hh
          exact absurd hh (by simp)
        · intro hh
          exact absurd hh hnone

theorem visitEmbedded_ok_of_no_error :
    ∀ (xs : List (Except KrillaError EmbeddedPdfChunk)) (n : Nat),
      xs.filterMap exceptErr = [] → ∃ t, visitEmbedded xs n = .ok t := by
  intro xs
  induction xs with
  | nil => intro n _; exact ⟨([], [], n), rfl⟩
  | cons x rest ih =>
    intro n hfe
    cases x with
    | error e0 =>
      simp [List.filterMap_cons, exceptErr] at hfe
    | ok epc =>
      simp only [List.filterMap_cons, exceptErr] at hfe
      obtain ⟨⟨cs, ys, c2⟩, ht⟩ := ih (epc.visitStep n).2.2 hfe
      refine ⟨((epc.visitStep n).1 :: cs, .ok (epc.visitStep n).2.1 :: ys, c2), ?_⟩
      unfold visitEmbedded
      simp only
      rw [ht]

theorem ChunkContainer.visit_error_iff (cc : ChunkContainer) (counter : Nat)
    (e : KrillaError) :
    cc.visit counter = .error e ↔ cc.firstError = some e := by
  unfold ChunkContainer.visit ChunkContainer.firstError
  cases hi : visitResults cc.images with
  | error e1 =>
    have hh := (visitResults_error_iff cc.images e1).mp hi
    obtain ⟨e1', tl, hl⟩ : ∃ e1' tl, cc.images.filterMap exceptErr = e1' :: tl := by
      cases hfm : cc.images.filterMap exceptErr with
      | nil => rw [hfm] at hh; exact absurd hh (by simp)
      | cons a b => exact ⟨a, b, rfl⟩
    rw [hl] at hh
    have he1 : e1' = e1 := by
      simpa using hh
    subst he1
    rw [hl]
    simp only [List.cons_append, List.head?_cons]
    constructor
    · intro hh2
      injection hh2 with hh2
      rw [hh2]
    · intro hh2
      injection hh2 with hh2
      rw [hh2]
  | ok imgs =>
    have hie : cc.images.filterMap exceptErr = [] := by
      cases hfm : cc.images.filterMap exceptErr with
      | nil => rfl
      | cons a b =>
        have : visitResults cc.images = .error a :=
          (visitResults_error_iff cc.images a).mpr (by rw [hfm]; rfl)
        rw [hi] at this
        exact absurd this (by simp)
    rw [hie, List.nil_append]
    cases he : visitEmbedded cc.embedded_pdfs counter with
    | error e1 =>
      rw [(visitEmbedded_error_iff cc.embedded_pdfs counter e1).mp he]
      constructor
      · intro hh2
        injection hh2 with hh2
        rw [hh2]
      · intro hh2
        injection hh2 with hh2
        rw [hh2]
    | ok t =>
      obtain ⟨embCs, emb2, c2⟩ := t
      have hnone : ¬(cc.embedded_pdfs.filterMap exceptErr).head? = some e := by
        intro hh
        rw [(visitEmbedded_error_iff cc.embedded_pdfs counter e).mpr hh] at he
        exact Except.noConfusion he
      constructor
      · intro hh
        exact absurd hh (by simp)
      · intro hh
        exact absurd hh hnone

theorem ChunkContainer.visit_ok_of_no_error (cc : ChunkContainer) (counter : Nat)
    (hne : cc.firstError = none) :
    ∃ t, cc.visit counter = .ok t := by
  unfold ChunkContainer.firstError at hne
  rw [List.head?_eq_none_iff, List.append_eq_nil] at hne
  obtain ⟨imgs, hi⟩ := visitResults_ok_of_no_error cc.images hne.1
  obtain ⟨⟨embCs, emb2, c2⟩, he⟩ :=
    visitEmbedded_ok_of_no_error cc.embedded_pdfs counter hne.2
  refine ⟨(cc.baseChunks ++ imgs ++ cc.embedded_files ++ embCs,
    { cc with embedded_pdfs := emb2 }, c2), ?_⟩
  unfold ChunkContainer.visit
  rw [hi, he]

/-- **C5.** `ChunkContainer::finish` returns an error exactly when some
fallible fragment slot holds a production failure, and the error returned is
the first such failure in the fixed traversal order; when no fragment failed
it returns a complete output.  (An `Except.error` result carries no output
value at all.) -/
theorem chunkContainer_finish_first_error (cc : ChunkContainer)
    (signer : Option PdfSig) (xmp : Bool) (counter : Nat) :
    (∀ e, cc.finish signer xmp counter = .error e ↔ cc.firstError = some e)
    ∧ (cc.firstError = none → ∃ out, cc.finish signer xmp counter = .ok out) := by
  constructor
  · intro e
    constructor
    · intro hf
      unfold ChunkContainer.finish at hf
      cases hv : cc.visit counter with
      | error e0 =>
        rw [hv] at hf
        simp only at hf
        injection hf with hf
        rw [← hf]
        exact (cc.visit_error_iff counter e0).mp hv
      | ok t =>
        obtain ⟨l, cc1, c1⟩ := t
        rw [hv] at hf
        simp only at hf
        rw [ChunkContainer.visit_idem cc counter l cc1 c1 hv] at hf
        exact absurd hf (by simp)
    · intro hfe
      have hv := (cc.visit_error_iff counter e).mpr hfe
      unfold ChunkContainer.finish
      rw [hv]
  · intro hne
    obtain ⟨⟨l, cc1, c1⟩, hv⟩ := cc.visit_ok_of_no_error counter hne
    have hv2 := ChunkContainer.visit_idem cc counter l cc1 c1 hv
    refine ⟨(l.map (Chunk.renumberOpt (buildRemapper l)),
      (cc1.finishTail signer xmp (buildRemapperSt l).2).1,
      (cc1.finishTail signer xmp (buildRemapperSt l).2).2), ?_⟩
    unfold ChunkContainer.finish
    rw [hv]
    simp only [hv2]

/-- Witness for C5: a container whose second image failed and whose embedded
PDF also failed reports the image failure (the first in traversal order), and
the error-free variant finishes with an output. -/
theorem chunkContainer_finish_first_error_witness :
    ChunkContainer.finish
        ⟨none, none, none, none, none, [], [], [], [], [], [], [], [], [], [],
          [], [], [], [.ok ⟨[1], [], 2⟩, .error (.err 7)], [], [.error (.err 9)], none⟩
        none false 1
      = .error (.err 7)
    ∧ (∃ out, ChunkContainer.finish
        ⟨none, none, none, none, none, [], [], [], [], [], [], [], [], [], [],
          [], [], [], [.ok ⟨[1], [], 2⟩], [], [], none⟩
        none false 1 = .ok out) := by
  constructor
  · exact ((chunkContainer_finish_first_error
      ⟨none, none, none, none, none, [], [], [], [], [], [], [], [], [], [],
        [], [], [], [.ok ⟨[1], [], 2⟩, .error (.err 7)], [], [.error (.err 9)], none⟩
      none false 1).1 (.err 7)).mpr (by decide)
  · exact (chunkContainer_finish_first_error
      ⟨none, none, none, none, none, [], [], [], [], [], [], [], [], [], [],
        [], [], [], [.ok ⟨[1], [], 2⟩], [], [], none⟩
      none false 1).2 (by decide)

theorem sigContentsBytes_length : sigContentsBytes.length = 11110 := by
  unfold sigContentsBytes
  rw [List.length_set, List.length_set, List.length_set, List.length_set,
    List.length_replicate]

theorem sigContentsBytes_take : sigContentsBytes.take 4 = [190, 239, 250, 206] := by decide

theorem sigContentsBytes_drop : sigContentsBytes.drop 4 = List.replicate 11106 0 := by
  have h : (11110 : Nat) = 4 + 11106 := by norm_num
  unfold sigContentsBytes
  rw [h, List.replicate_add]
  rfl

theorem byteRangePlaceholder_eq : byteRangePlaceholder = List.replicate 4 88888888 := rfl

/-- **C7.** In the catalog assembly of `ChunkContainer::finish`, exactly when a
signer configuration, a metadata creation date and a page tree are all
present, the catalog gains the Perms/DocMDP entry and the AcroForm signature
structure, two additional references beyond the catalog's are allocated (the
form-field widget and the signature dictionary), and the signature dictionary
carries the fixed-width placeholders: a Contents string of 11110 bytes
beginning with the marker bytes 190, 239, 250, 206 (`BEEFFACE`) followed by
zeros, and the fixed-width ByteRange pattern of four 88888888 values;
otherwise the catalog is finished normally with none of these. -/
theorem chunkContainer_signature_placeholders (cc : ChunkContainer)
    (signer : Option PdfSig) (xmp : Bool) (counter : Nat) :
    (((cc.finishTail signer xmp counter).1.has_perms = true
        ∧ (cc.finishTail signer xmp counter).1.has_acro_form = true)
      ↔ (signer.isSome = true
          ∧ (cc.metadata.bind (fun m => m.creation_date)).isSome = true
          ∧ cc.page_tree.isSome = true))
    ∧ (signer.isSome = true →
        (cc.metadata.bind (fun m => m.creation_date)).isSome = true →
        cc.page_tree.isSome = true →
        (cc.finishTail signer xmp counter).1.widget_id
            = some (counter + (if xmp then 1 else 0) + 1)
        ∧ (cc.finishTail signer xmp counter).1.sig_id
            = some (counter + (if xmp then 1 else 0) + 2)
        ∧ (cc.finishTail signer xmp counter).1.counter_out
            = counter + (if xmp then 1 else 0) + 3
        ∧ (cc.finishTail signer xmp counter).1.sig_contents = some sigContentsBytes
        ∧ (cc.finishTail signer xmp counter).1.byte_range = some byteRangePlaceholder)
    ∧ (¬(signer.isSome = true
          ∧ (cc.metadata.bind (fun m => m.creation_date)).isSome = true
          ∧ cc.page_tree.isSome = true) →
        (cc.finishTail signer xmp counter).1.widget_id = none
        ∧ (cc.finishTail signer xmp counter).1.sig_id = none
        ∧ (cc.finishTail signer xmp counter).1.sig_contents = none
        ∧ (cc.finishTail signer xmp counter).1.byte_range = none
        ∧ (cc.finishTail signer xmp counter).1.has_perms = false
        ∧ (cc.finishTail signer xmp counter).1.has_acro_form = false
        ∧ (cc.finishTail signer xmp counter).1.counter_out
            = (if (cc.finishTail signer xmp counter).1.catalog_written
               then counter + (if xmp then 1 else 0) + 1 else counter))
    ∧ sigContentsBytes.length = 11110
    ∧ sigContentsBytes.take 4 = [190, 239, 250, 206]
    ∧ sigContentsBytes.drop 4 = List.replicate 11106 0
    ∧ byteRangePlaceholder = List.replicate 4 88888888 := by
  refine ⟨?_, ?_, ?_, sigContentsBytes_length, sigContentsBytes_take,
    sigContentsBytes_drop, byteRangePlaceholder_eq⟩
  all_goals
    rcases signer with _ | sig <;>
      rcases hcd : cc.metadata.bind (fun m => m.creation_date) with _ | cd <;>
      rcases hpt : cc.page_tree with _ | pt <;>
      simp only [ChunkContainer.finishTail, hcd, hpt, Option.isSome_some,
        Option.isSome_none, Bool.true_or, Bool.false_or, if_true] <;>
      cases xmp <;>
      (by_cases hout : (cc.outline.isSome || cc.page_label_tree.isSome
          || cc.destination_profiles.isSome || cc.struct_tree_root.isSome) = true <;>
        simp [hout])

/-- Witness for C7: a signed document (signer present, creation date 99, page
tree present), no XMP stream, catalog block entered at `remapped_ref` 5: the
widget gets reference 6, the signature dictionary 7, the counter ends at 8
(two allocations beyond the catalog's), and the Contents placeholder is the
marker pattern. -/
theorem chunkContainer_signature_placeholders_witness :
    ((⟨some (10, ⟨[10], [], 1⟩), none, none, none, none, [], [], [], [], [], [], [], [], [],
        [], [], [], [], [], [], [], some ⟨none, none, some 99⟩⟩ : ChunkContainer).finishTail
        (some ⟨"n", "l", "r", "c"⟩) false 5).1.widget_id = some 6
    ∧ ((⟨some (10, ⟨[10], [], 1⟩), none, none, none, none, [], [], [], [], [], [], [], [], [],
        [], [], [], [], [], [], [], some ⟨none, none, some 99⟩⟩ : ChunkContainer).finishTail
        (some ⟨"n", "l", "r", "c"⟩) false 5).1.sig_contents = some sigContentsBytes
    ∧ ((⟨some (10, ⟨[10], [], 1⟩), none, none, none, none, [], [], [], [], [], [], [], [], [],
        [], [], [], [], [], [], [], some ⟨none, none, some 99⟩⟩ : ChunkContainer).finishTail
        (some ⟨"n", "l", "r", "c"⟩) false 5).1.counter_out = 8 := by
  have h := (chunkContainer_signature_placeholders
    ⟨some (10, ⟨[10], [], 1⟩), none, none, none, none, [], [], [], [], [], [], [], [], [],
      [], [], [], [], [], [], [], some ⟨none, none, some 99⟩⟩
    (some ⟨"n", "l", "r", "c"⟩) false 5).2.1 rfl (by decide) (by decide)
  refine ⟨?_, h.2.2.2.1, ?_⟩
  · have := h.1
    simpa using this
  · have := h.2.2.1
    simpa using this

/-- Modelled from the spec: the container-building step `SerializeContext::finish`
(its source is not included under `src/`) gives every finalized document a page
tree — `Document::finish` starts a page when none exists, and per the spec "an
empty authored document still produces a valid, catalog-containing output once
at least one page is added automatically". -/
def FinalizedDoc (cc : ChunkContainer) : Prop := cc.page_tree.isSome = true

theorem finishTail_diags (cc : ChunkContainer) (signer : Option PdfSig)
    (xmp : Bool) (counter : Nat) (pt : Nat × Chunk) (hpt : cc.page_tree = some pt) :
    (cc.finishTail signer xmp counter).2
      = (if (match cc.metadata with | none => true | some m => m.title.isNone)
         then [ValidationError.noDocumentTitle] else [])
        ++ (if (cc.metadata.bind (fun m => m.language)).isNone
            then [ValidationError.noDocumentLanguage] else [])
    ∧ (cc.finishTail signer xmp counter).1.catalog_written = true
    ∧ (cc.finishTail signer xmp counter).1.lang_set
        = (cc.metadata.bind (fun m => m.language)).isSome := by
  rcases signer with _ | sig <;>
    rcases hcd : cc.metadata.bind (fun m => m.creation_date) with _ | cd <;>
    simp [ChunkContainer.finishTail, hpt, hcd]

/-- **C8.** During finalize of a document with a page tree (every finalized
document has one), a missing title raises the `NoDocumentTitle` diagnostic and
a missing language raises the distinct `NoDocumentLanguage` diagnostic, both
recoverable: the catalog is still written, the language entry is simply
omitted, and (absent failed fragments) finish still returns a complete
output. -/
theorem chunkContainer_missing_title_language_diagnostics (cc : ChunkContainer)
    (signer : Option PdfSig) (xmp : Bool) (counter : Nat)
    (hfin : FinalizedDoc cc) :
    ((cc.metadata.bind (fun m => m.title)) = none →
        ValidationError.noDocumentTitle ∈ (cc.finishTail signer xmp counter).2)
    ∧ ((cc.metadata.bind (fun m => m.language)) = none →
        ValidationError.noDocumentLanguage ∈ (cc.finishTail signer xmp counter).2)
    ∧ ValidationError.noDocumentTitle ≠ ValidationError.noDocumentLanguage
    ∧ (cc.finishTail signer xmp counter).1.catalog_written = true
    ∧ ((cc.metadata.bind (fun m => m.language)) = none →
        (cc.finishTail signer xmp counter).1.lang_set = false)
    ∧ (cc.firstError = none → ∃ out, cc.finish signer xmp counter = .ok out) := by
  obtain ⟨pt, hpt⟩ := Option.isSome_iff_exists.mp hfin
  obtain ⟨hd, hcw, hls⟩ := finishTail_diags cc signer xmp counter pt hpt
  refine ⟨?_, ?_, by decide, hcw, ?_, ?_⟩
  · intro ht
    rw [hd]
    have hmt : (match cc.metadata with | none => true | some m => m.title.isNone) = true := by
      cases hm : cc.metadata with
      | none => rfl
      | some m =>
        rw [hm] at ht
        have hht : m.title = none := by simpa using ht
        simp [hht]
    rw [hmt]
    simp
  · intro hl
    rw [hd, hl]
    simp
  · intro hl
    rw [hls, hl]
    rfl
  · intro hne
    obtain ⟨⟨l, cc1, c1⟩, hv⟩ := cc.visit_ok_of_no_error counter hne
    have hv2 := ChunkContainer.visit_idem cc counter l cc1 c1 hv
    refine ⟨(l.map (Chunk.renumberOpt (buildRemapper l)),
      (cc1.finishTail signer xmp (buildRemapperSt l).2).1,
      (cc1.finishTail signer xmp (buildRemapperSt l).2).2), ?_⟩
    unfold ChunkContainer.finish
    rw [hv]
    simp only [hv2]

/-- Witness for C8: a document with a page tree and no metadata at all gets
both diagnostics, and still finishes with an output. -/
theorem chunkContainer_missing_title_language_diagnostics_witness :
    ValidationError.noDocumentTitle ∈
      ((⟨some (10, ⟨[10], [], 1⟩), none, none, none, none, [], [], [], [], [], [], [], [],
        [], [], [], [], [], [], [], [], none⟩ : ChunkContainer).finishTail none false 5).2
    ∧ ValidationError.noDocumentLanguage ∈
      ((⟨some (10, ⟨[10], [], 1⟩), none, none, none, none, [], [], [], [], [], [], [], [],
        [], [], [], [], [], [], [], [], none⟩ : ChunkContainer).finishTail none false 5).2
    ∧ (∃ out, (⟨some (10, ⟨[10], [], 1⟩), none, none, none, none, [], [], [], [], [], [],
        [], [], [], [], [], [], [], [], [], [], none⟩ : ChunkContainer).finish
          none false 5 = .ok out) := by
  have h := chunkContainer_missing_title_language_diagnostics
    ⟨some (10, ⟨[10], [], 1⟩), none, none, none, none, [], [], [], [], [], [], [], [],
      [], [], [], [], [], [], [], [], none⟩ none false 5 rfl
  exact ⟨h.1 rfl, h.2.1 rfl, h.2.2.2.2.2 (by decide)⟩
